import Mathlib

set_option maxRecDepth 100000

/-!
# Tahoe-LAFS core: a shallow embedding with verified properties

This file embeds, in Lean 4, the parts of the Tahoe-LAFS storage system
needed to settle a set of claims about its specification:

* the base32 capability codec and the capability URI grammar
  (parse / emit round trips);
* the node-maker dispatch from capability strings to file / directory /
  unknown nodes;
* the server-selection permutation (hash-keyed stable sorting of servers,
  with a preferred-server subset moved to the front);
* the immutable-share storage-server protocol
  (`allocate_buckets`, bucket `write` / `close` / `read`, `get_buckets`);
* the CPU thread-pool configuration used by `defer_to_thread`;
* the OpenStack cloud-container HTTP error reaction.

Byte strings are modelled as `List Nat` (each element a byte value),
matching the Python-2 `str` type used throughout the source.  Where the
Python implementation file is not part of the source tree (only its tests
are), the definition carries a doc comment starting `Modelled from the
spec:` and is anchored to the concrete input/output vectors asserted by
the repository's own test suite.
-/

namespace Tahoe

/-! ## Bit-level infrastructure

Big-endian bit strings, used by the base32 codec (`allmydata/util/base32.py`
behaviour: RFC 4648 base32, lowercase, no padding, canonical trailing bits).
-/

/-- Concatenation of the images of `f`, i.e. `List.flatten (l.map f)`;
defined recursively to keep proofs self-contained. -/
def catMap (f : α → List β) : List α → List β
  | [] => []
  | x :: xs => f x ++ catMap f xs

/-- Monadic-style map into `Option`: succeeds iff `f` succeeds on every
element, returning the list of results. -/
def mapOpt (f : α → Option β) : List α → Option (List β)
  | [] => some []
  | x :: xs =>
    match f x, mapOpt f xs with
    | some y, some ys => some (y :: ys)
    | _, _ => none

/-- The value of a big-endian bit string. -/
def bitsToNat (bs : List Bool) : Nat :=
  bs.foldl (fun a b => 2 * a + cond b 1 0) 0

/-- The `w`-bit big-endian representation of `n % 2 ^ w`. -/
def natToBits : Nat → Nat → List Bool
  | 0, _ => []
  | w + 1, n => natToBits w (n / 2) ++ [decide (n % 2 = 1)]

theorem natToBits_length (w n : Nat) : (natToBits w n).length = w := by
  induction w generalizing n with
  | zero => rfl
  | succ w ih => simp [natToBits, ih]

theorem bitsToNat_cons (b : Bool) (bs : List Bool) :
    bitsToNat (b :: bs) = cond b 1 0 * 2 ^ bs.length + bitsToNat bs := by
  have aux : ∀ (l : List Bool) (a : Nat),
      l.foldl (fun a b => 2 * a + cond b 1 0) a
        = a * 2 ^ l.length + l.foldl (fun a b => 2 * a + cond b 1 0) 0 := by
    intro l
    induction l with
    | nil => intro a; simp
    | cons x xs ih =>
      intro a
      simp only [List.foldl_cons, List.length_cons]
      rw [ih (2 * a + cond x 1 0), ih (2 * 0 + cond x 1 0)]
      ring
  simp only [bitsToNat, List.foldl_cons]
  rw [aux bs (2 * 0 + cond b 1 0)]
  ring

theorem bitsToNat_append (xs ys : List Bool) :
    bitsToNat (xs ++ ys) = bitsToNat xs * 2 ^ ys.length + bitsToNat ys := by
  induction xs with
  | nil => simp [bitsToNat]
  | cons x xs ih =>
    simp only [List.cons_append, bitsToNat_cons, List.length_append, ih]
    ring

theorem bitsToNat_lt (bs : List Bool) : bitsToNat bs < 2 ^ bs.length := by
  induction bs with
  | nil => simp [bitsToNat]
  | cons b xs ih =>
    rw [bitsToNat_cons]
    have hb : cond b 1 0 ≤ 1 := by cases b <;> simp
    have h2 : (2 : Nat) ^ (b :: xs).length = 2 ^ xs.length + 2 ^ xs.length := by
      simp [List.length_cons, pow_succ]; ring
    rw [h2]
    have : cond b 1 0 * 2 ^ xs.length ≤ 2 ^ xs.length := by
      calc cond b 1 0 * 2 ^ xs.length ≤ 1 * 2 ^ xs.length := by
            exact Nat.mul_le_mul_right _ hb
        _ = 2 ^ xs.length := by ring
    omega

theorem bitsToNat_natToBits {w n : Nat} (h : n < 2 ^ w) :
    bitsToNat (natToBits w n) = n := by
  induction w generalizing n with
  | zero =>
    simp only [pow_zero, Nat.lt_one_iff] at h
    simp [natToBits, bitsToNat, h]
  | succ w ih =>
    have hdiv : n / 2 < 2 ^ w := by
      rw [pow_succ] at h
      omega
    simp only [natToBits, bitsToNat_append, ih hdiv]
    have : bitsToNat [decide (n % 2 = 1)] = n % 2 := by
      rcases Nat.mod_two_eq_zero_or_one n with h2 | h2 <;>
        simp [bitsToNat, h2]
    simp only [List.length_cons, List.length_nil, this, pow_one]
    omega

theorem natToBits_bitsToNat (bs : List Bool) :
    natToBits bs.length (bitsToNat bs) = bs := by
  induction bs using List.reverseRecOn with
  | nil => rfl
  | append_singleton xs b ih =>
    have hlen : (xs ++ [b]).length = xs.length + 1 := by simp
    rw [hlen]
    have hval : bitsToNat (xs ++ [b]) = 2 * bitsToNat xs + cond b 1 0 := by
      rw [bitsToNat_append]
      have hb : bitsToNat [b] = cond b 1 0 := by
        cases b <;> rfl
      simp only [List.length_cons, List.length_nil, hb, pow_one]
      ring
    rw [hval]
    have hdiv : (2 * bitsToNat xs + cond b 1 0) / 2 = bitsToNat xs := by
      cases b <;> simp only [cond_true, cond_false] <;> omega
    have hmod : decide ((2 * bitsToNat xs + cond b 1 0) % 2 = 1) = b := by
      cases b <;> simp only [cond_true, cond_false] <;>
        simp only [decide_eq_true_eq, decide_eq_false_iff_not] <;> omega
    simp only [natToBits, hdiv, ih, hmod]

theorem catMap_append (f : α → List β) (xs ys : List α) :
    catMap f (xs ++ ys) = catMap f xs ++ catMap f ys := by
  induction xs with
  | nil => rfl
  | cons x xs ih => simp [catMap, ih]

theorem catMap_length_const (f : α → List β) (k : Nat) (l : List α)
    (h : ∀ x ∈ l, (f x).length = k) : (catMap f l).length = k * l.length := by
  induction l with
  | nil => simp [catMap]
  | cons x xs ih =>
    have hx : (f x).length = k := h x (List.mem_cons_self x xs)
    have hxs : (catMap f xs).length = k * xs.length :=
      ih fun y hy => h y (List.mem_cons_of_mem x hy)
    simp [catMap, hx, hxs, Nat.mul_succ, Nat.add_comm]

/-- Split a bit string into consecutive groups of 5, dropping any
incomplete final group. -/
def chunk5 : List Bool → List (List Bool)
  | a :: b :: c :: d :: e :: r => [a, b, c, d, e] :: chunk5 r
  | _ => []

/-- Split a bit string into consecutive groups of 8, dropping any
incomplete final group. -/
def chunk8 : List Bool → List (List Bool)
  | a :: b :: c :: d :: e :: f :: g :: h :: r =>
      [a, b, c, d, e, f, g, h] :: chunk8 r
  | _ => []

theorem chunk5_append (g r : List Bool) (h : g.length = 5) :
    chunk5 (g ++ r) = g :: chunk5 r := by
  match g, h with
  | [a, b, c, d, e], _ => rfl

theorem chunk8_append (g r : List Bool) (h : g.length = 8) :
    chunk8 (g ++ r) = g :: chunk8 r := by
  match g, h with
  | [a, b, c, d, e, f, g, h], _ => rfl

theorem chunk5_catMap (f : α → List Bool) (l : List α)
    (h : ∀ x ∈ l, (f x).length = 5) :
    chunk5 (catMap f l) = l.map f := by
  induction l with
  | nil => rfl
  | cons x xs ih =>
    have hx : (f x).length = 5 := h x (List.mem_cons_self x xs)
    simp only [catMap, List.map_cons]
    rw [chunk5_append _ _ hx, ih fun y hy => h y (List.mem_cons_of_mem x hy)]

theorem chunk8_catMap (f : α → List Bool) (l : List α)
    (h : ∀ x ∈ l, (f x).length = 8) :
    chunk8 (catMap f l) = l.map f := by
  induction l with
  | nil => rfl
  | cons x xs ih =>
    have hx : (f x).length = 8 := h x (List.mem_cons_self x xs)
    simp only [catMap, List.map_cons]
    rw [chunk8_append _ _ hx, ih fun y hy => h y (List.mem_cons_of_mem x hy)]

theorem chunk5_mem_length : ∀ (m : Nat) (l : List Bool),
    l.length = 5 * m → ∀ g ∈ chunk5 l, g.length = 5 := by
  intro m
  induction m with
  | zero =>
    intro l hl g hg
    have : l = [] := List.length_eq_zero.mp (by omega)
    subst this
    simp [chunk5] at hg
  | succ m ih =>
    intro l hl g hg
    have hlen : 5 ≤ l.length := by omega
    have hsplit : l = l.take 5 ++ l.drop 5 := (List.take_append_drop 5 l).symm
    have htake : (l.take 5).length = 5 := by
      rw [List.length_take]; omega
    have hdrop : (l.drop 5).length = 5 * m := by
      rw [List.length_drop]; omega
    rw [hsplit, chunk5_append _ _ htake] at hg
    rcases List.mem_cons.mp hg with h | h
    · rw [h]; exact htake
    · exact ih (l.drop 5) hdrop g h

theorem catMap_congr {f g : α → List β} : ∀ {l : List α},
    (∀ x ∈ l, f x = g x) → catMap f l = catMap g l := by
  intro l
  induction l with
  | nil => intro _; rfl
  | cons x xs ih =>
    intro h
    simp only [catMap, h x (List.mem_cons_self x xs),
      ih fun y hy => h y (List.mem_cons_of_mem x hy)]

theorem catMap_map (f : β → List γ) (g : α → β) (l : List α) :
    catMap f (l.map g) = catMap (fun x => f (g x)) l := by
  induction l with
  | nil => rfl
  | cons x xs ih => simp [catMap, ih]

theorem chunk5_join : ∀ (m : Nat) (l : List Bool), l.length = 5 * m →
    catMap (fun g => g) (chunk5 l) = l := by
  intro m
  induction m with
  | zero =>
    intro l hl
    have : l = [] := List.length_eq_zero.mp (by omega)
    subst this
    rfl
  | succ m ih =>
    intro l hl
    have hlen : 5 ≤ l.length := by omega
    have hsplit : l = l.take 5 ++ l.drop 5 := (List.take_append_drop 5 l).symm
    have htake : (l.take 5).length = 5 := by
      rw [List.length_take]; omega
    have hdrop : (l.drop 5).length = 5 * m := by
      rw [List.length_drop]; omega
    conv_lhs => rw [hsplit, chunk5_append _ _ htake]
    simp only [catMap]
    rw [ih (l.drop 5) hdrop]
    exact (List.take_append_drop 5 l)

theorem chunk8_join : ∀ (m : Nat) (l : List Bool), l.length = 8 * m →
    catMap (fun g => g) (chunk8 l) = l := by
  intro m
  induction m with
  | zero =>
    intro l hl
    have : l = [] := List.length_eq_zero.mp (by omega)
    subst this
    rfl
  | succ m ih =>
    intro l hl
    have hlen : 8 ≤ l.length := by omega
    have hsplit : l = l.take 8 ++ l.drop 8 := (List.take_append_drop 8 l).symm
    have htake : (l.take 8).length = 8 := by
      rw [List.length_take]; omega
    have hdrop : (l.drop 8).length = 8 * m := by
      rw [List.length_drop]; omega
    conv_lhs => rw [hsplit, chunk8_append _ _ htake]
    simp only [catMap]
    rw [ih (l.drop 8) hdrop]
    exact (List.take_append_drop 8 l)

theorem chunk8_mem_length : ∀ (m : Nat) (l : List Bool),
    l.length = 8 * m → ∀ g ∈ chunk8 l, g.length = 8 := by
  intro m
  induction m with
  | zero =>
    intro l hl g hg
    have : l = [] := List.length_eq_zero.mp (by omega)
    subst this
    simp [chunk8] at hg
  | succ m ih =>
    intro l hl g hg
    have hlen : 8 ≤ l.length := by omega
    have hsplit : l = l.take 8 ++ l.drop 8 := (List.take_append_drop 8 l).symm
    have htake : (l.take 8).length = 8 := by
      rw [List.length_take]; omega
    have hdrop : (l.drop 8).length = 8 * m := by
      rw [List.length_drop]; omega
    rw [hsplit, chunk8_append _ _ htake] at hg
    rcases List.mem_cons.mp hg with h | h
    · rw [h]; exact htake
    · exact ih (l.drop 8) hdrop g h

theorem mapOpt_eq_some {f : α → Option β} : ∀ {l : List α} {ys : List β},
    mapOpt f l = some ys →
    l.length = ys.length ∧ ∀ i (hi : i < l.length) (hj : i < ys.length),
      f (l.get ⟨i, hi⟩) = some (ys.get ⟨i, hj⟩) := by
  intro l
  induction l with
  | nil =>
    intro ys h
    simp only [mapOpt, Option.some.injEq] at h
    subst h
    exact ⟨rfl, fun i hi => by simp at hi⟩
  | cons x xs ih =>
    intro ys h
    simp only [mapOpt] at h
    rcases hfx : f x with _ | y
    · rw [hfx] at h; exact absurd h (by simp)
    rcases hrest : mapOpt f xs with _ | zs
    · rw [hfx, hrest] at h; exact absurd h (by simp)
    rw [hfx, hrest] at h
    simp only [Option.some.injEq] at h
    subst h
    obtain ⟨hlen, hget⟩ := ih hrest
    refine ⟨by simp [hlen], ?_⟩
    intro i hi hj
    match i with
    | 0 => simpa using hfx
    | Nat.succ k =>
      simp only [List.get_cons_succ]
      exact hget k (by simpa using hi) (by simpa using hj)

theorem mapOpt_map_eq_some {f : α → Option β} {g : β → α} {l : List β}
    (h : ∀ x ∈ l, f (g x) = some x) : mapOpt f (l.map g) = some l := by
  induction l with
  | nil => rfl
  | cons x xs ih =>
    have hx := h x (List.mem_cons_self x xs)
    have hxs := ih fun y hy => h y (List.mem_cons_of_mem x hy)
    simp [mapOpt, hx, hxs]

/-! ## The base32 codec

`allmydata/util/base32.py`: RFC 4648 base32 with the lowercase alphabet
`a`–`z`, `2`–`7`, emitted without padding; decoding rejects characters
outside the alphabet and non-canonical trailing bits
(`could_be_base32_encoded`).  Byte strings are `List Nat`.
-/

/-- ASCII codes of the RFC 4648 lowercase base32 alphabet
`abcdefghijklmnopqrstuvwxyz234567`. -/
def b32alphaCodes : List Nat :=
  [97, 98, 99, 100, 101, 102, 103, 104, 105, 106, 107, 108, 109,
   110, 111, 112, 113, 114, 115, 116, 117, 118, 119, 120, 121, 122,
   50, 51, 52, 53, 54, 55]

/-- The ASCII code of the alphabet character for a 5-bit value. -/
def quintToCode (q : Nat) : Nat := b32alphaCodes.getD q 97

/-- The 5-bit value of an ASCII code, if it is in the alphabet. -/
def codeToQuint (n : Nat) : Option Nat :=
  (List.range 32).find? (fun q => quintToCode q == n)

theorem codeToQuint_quintToCode : ∀ q, q < 32 →
    codeToQuint (quintToCode q) = some q := by decide

theorem codeToQuint_inv {n q : Nat} (h : codeToQuint n = some q) :
    q < 32 ∧ quintToCode q = n := by
  simp only [codeToQuint] at h
  have hmem : q ∈ List.range 32 := List.mem_of_find?_eq_some h
  have hp := List.find?_some h
  exact ⟨List.mem_range.mp hmem, by simpa using hp⟩

/-- Encode a byte string in unpadded lowercase base32 (`base32.b2a`). -/
def b32encode (bytes : List Nat) : List Nat :=
  let bits := catMap (natToBits 8) bytes
  let pd := (5 - bits.length % 5) % 5
  (chunk5 (bits ++ List.replicate pd false)).map (fun g => quintToCode (bitsToNat g))

/-- Decode an unpadded lowercase base32 string (`base32.a2b`), rejecting
characters outside the alphabet and non-canonical trailing bits. -/
def b32decode (s : List Nat) : Option (List Nat) :=
  match mapOpt codeToQuint s with
  | none => none
  | some qs =>
    let bits := catMap (natToBits 5) qs
    let nb := bits.length / 8
    let rest := bits.drop (8 * nb)
    if rest.length < 5 ∧ rest = List.replicate rest.length false
    then some ((chunk8 (bits.take (8 * nb))).map bitsToNat)
    else none

theorem b32decode_b32encode (bytes : List Nat) (h : ∀ b ∈ bytes, b < 256) :
    b32decode (b32encode bytes) = some bytes := by
  have hbitlen : (catMap (natToBits 8) bytes).length = 8 * bytes.length :=
    catMap_length_const _ _ _ fun x _ => natToBits_length 8 x
  set bits := catMap (natToBits 8) bytes with hbits
  set pd := (5 - bits.length % 5) % 5 with hpd
  have hpdlt : pd < 5 := by omega
  set padded := bits ++ List.replicate pd false with hpadded
  have hpaddedlen : padded.length = 8 * bytes.length + pd := by
    simp [hpadded, hbitlen]
  have hpadmul : padded.length % 5 = 0 := by
    simp only [hpadded, List.length_append, List.length_replicate]
    omega
  obtain ⟨m, hm⟩ : ∃ m, padded.length = 5 * m := ⟨padded.length / 5, by omega⟩
  have hchunklen : ∀ g ∈ chunk5 padded, g.length = 5 :=
    chunk5_mem_length m padded hm
  have hquintlt : ∀ g ∈ chunk5 padded, bitsToNat g < 32 := by
    intro g hg
    have := bitsToNat_lt g
    rw [hchunklen g hg] at this
    simpa using this
  -- The decode of each emitted character succeeds.
  have hmap : mapOpt codeToQuint (b32encode bytes)
      = some ((chunk5 padded).map bitsToNat) := by
    have : b32encode bytes
        = ((chunk5 padded).map bitsToNat).map quintToCode := by
      simp [b32encode, List.map_map, hbits, hpd, hpadded]
    rw [this]
    exact mapOpt_map_eq_some fun x hx => by
      obtain ⟨g, hg, hgx⟩ := List.mem_map.mp hx
      exact hgx ▸ codeToQuint_quintToCode _ (hquintlt g hg)
  simp only [b32decode, hmap]
  -- The recovered bit string is the padded bit string.
  have hback : catMap (natToBits 5) ((chunk5 padded).map bitsToNat) = padded := by
    rw [catMap_map]
    calc catMap (fun g => natToBits 5 (bitsToNat g)) (chunk5 padded)
        = catMap (fun g => g) (chunk5 padded) := by
          apply catMap_congr
          intro g hg
          have h5 : g.length = 5 := hchunklen g hg
          have := natToBits_bitsToNat g
          rw [h5] at this
          exact this
      _ = padded := chunk5_join m padded hm
  rw [hback]
  -- Splitting the padded bits at the byte boundary recovers the original
  -- bits plus the all-zero padding.
  have hnb : padded.length / 8 = bytes.length := by
    rw [hpaddedlen]
    rw [Nat.mul_add_div (by norm_num)]
    simp [Nat.div_eq_of_lt hpdlt]
    omega
  have htake : padded.take (8 * (padded.length / 8)) = bits := by
    rw [hnb, hpadded]
    have : 8 * bytes.length = bits.length := hbitlen.symm
    rw [this]
    exact List.take_left bits _
  have hdrop : padded.drop (8 * (padded.length / 8)) = List.replicate pd false := by
    rw [hnb, hpadded]
    have : 8 * bytes.length = bits.length := hbitlen.symm
    rw [this]
    exact List.drop_left bits _
  rw [hdrop, htake]
  have hrestlen : (List.replicate pd false).length = pd := List.length_replicate _ _
  rw [if_pos ⟨by rw [hrestlen]; exact hpdlt, by rw [hrestlen]⟩]
  -- Re-chunking the original bits into bytes recovers the byte string.
  congr 1
  have hchunks : chunk8 bits = bytes.map (natToBits 8) :=
    chunk8_catMap _ _ fun x _ => natToBits_length 8 x
  rw [hchunks, List.map_map]
  calc bytes.map (bitsToNat ∘ natToBits 8)
      = bytes.map (fun b => b) := by
        apply List.map_congr_left
        intro b hb
        have : b < 2 ^ 8 := by simpa using h b hb
        simpa using bitsToNat_natToBits this
    _ = bytes := List.map_id_fun.symm ▸ by simp

theorem b32encode_b32decode {s bytes : List Nat}
    (h : b32decode s = some bytes) : b32encode bytes = s := by
  rcases hqs : mapOpt codeToQuint s with _ | qs
  · rw [b32decode, hqs] at h; exact absurd h (by simp)
  rw [b32decode, hqs] at h
  simp only at h
  set bits := catMap (natToBits 5) qs with hbits
  set nb := bits.length / 8 with hnb
  by_cases hcond : (bits.drop (8 * nb)).length < 5 ∧
      bits.drop (8 * nb) = List.replicate (bits.drop (8 * nb)).length false
  swap
  · rw [if_neg hcond] at h; exact absurd h (by simp)
  rw [if_pos hcond] at h
  obtain ⟨hrlt, hrzero⟩ := hcond
  have hbytes : bytes = (chunk8 (bits.take (8 * nb))).map bitsToNat := by
    injection h with h
    exact h.symm
  -- Every element of `qs` is a 5-bit value, and `s` re-emits from `qs`.
  obtain ⟨hlen, hget⟩ := mapOpt_eq_some hqs
  have hqlt : ∀ q ∈ qs, q < 32 := by
    intro q hq
    obtain ⟨i, hi⟩ := List.mem_iff_get.mp hq
    have := hget i.1 (by omega) i.2
    have hinv := codeToQuint_inv this
    rcases hi with rfl
    exact hinv.1
  have hs : s = qs.map quintToCode := by
    apply List.ext_get (by simp [hlen])
    intro i hi hj
    have hj2 : i < qs.length := by simpa using hj
    have := hget i hi hj2
    have hinv := codeToQuint_inv this
    simp only [List.get_eq_getElem, List.getElem_map]
    have : quintToCode (qs.get ⟨i, hj2⟩) = s.get ⟨i, hi⟩ := hinv.2
    simpa using this.symm
  -- Lengths and the byte / padding split.
  have hbitlen : bits.length = 5 * qs.length :=
    catMap_length_const _ _ _ fun x _ => natToBits_length 5 x
  have hnble : 8 * nb ≤ bits.length := by
    rw [hnb, Nat.mul_comm]
    exact Nat.div_mul_le_self _ _
  have husedlen : (bits.take (8 * nb)).length = 8 * nb := by
    rw [List.length_take]; omega
  have hrestlen : (bits.drop (8 * nb)).length = bits.length - 8 * nb := by
    rw [List.length_drop]
  -- The encoder applied to the decoded bytes re-creates the bit string.
  rw [b32encode, hbytes]
  have hback : catMap (natToBits 8)
      ((chunk8 (bits.take (8 * nb))).map bitsToNat) = bits.take (8 * nb) := by
    rw [catMap_map]
    calc catMap (fun g => natToBits 8 (bitsToNat g)) (chunk8 (bits.take (8 * nb)))
        = catMap (fun g => g) (chunk8 (bits.take (8 * nb))) := by
          apply catMap_congr
          intro g hg
          have h8 : g.length = 8 := chunk8_mem_length nb _ husedlen g hg
          have := natToBits_bitsToNat g
          rw [h8] at this
          exact this
      _ = bits.take (8 * nb) := chunk8_join nb _ husedlen
  simp only [hback, husedlen]
  -- The padding the encoder adds is exactly the dropped zero tail.
  have hpd : (5 - 8 * nb % 5) % 5 = bits.length - 8 * nb := by
    have h5 : bits.length % 5 = 0 := by omega
    omega
  rw [hpd]
  have hpadded : bits.take (8 * nb)
      ++ List.replicate (bits.length - 8 * nb) false = bits := by
    rw [← hrestlen, ← hrzero]
    exact List.take_append_drop _ _
  rw [hpadded, hbits]
  have hchunks : chunk5 (catMap (natToBits 5) qs) = qs.map (natToBits 5) :=
    chunk5_catMap _ _ fun x _ => natToBits_length 5 x
  rw [hchunks, List.map_map, hs]
  apply List.map_congr_left
  intro q hq
  simp only [Function.comp_apply]
  congr 1
  exact bitsToNat_natToBits (by simpa using hqlt q hq)

/-! ## Decimal integers

The `k`, `n` and `size` fields of a capability are canonical decimal
integers (ASCII digits, no leading zeros).
-/

/-- The ASCII decimal digits of `n`, most significant first. -/
def decToStr (n : Nat) : List Nat :=
  if h : n < 10 then [48 + n]
  else decToStr (n / 10) ++ [48 + n % 10]
  decreasing_by exact Nat.div_lt_self (by omega) (by omega)

/-- Parse a canonical ASCII decimal integer: nonempty, all digits, and no
leading zero (except for `"0"` itself). -/
def decParse (ds : List Nat) : Option Nat :=
  match ds with
  | [] => none
  | d :: rest =>
    if d = 48 ∧ rest ≠ [] then none
    else if ds.all (fun c => 48 ≤ c ∧ c ≤ 57)
    then some (ds.foldl (fun a c => 10 * a + (c - 48)) 0)
    else none

theorem decToStr_digits (n : Nat) :
    ∀ c ∈ decToStr n, 48 ≤ c ∧ c ≤ 57 := by
  induction n using Nat.strong_induction_on with
  | _ n ih =>
    intro c hc
    rw [decToStr] at hc
    by_cases h : n < 10
    · rw [dif_pos h] at hc
      simp only [List.mem_singleton] at hc
      omega
    · rw [dif_neg h] at hc
      rcases List.mem_append.mp hc with h1 | h1
      · exact ih (n / 10) (Nat.div_lt_self (by omega) (by omega)) c h1
      · simp only [List.mem_singleton] at h1
        have := Nat.mod_lt n (show 0 < 10 by omega)
        omega

theorem decToStr_ne_nil (n : Nat) : decToStr n ≠ [] := by
  rw [decToStr]
  by_cases h : n < 10
  · rw [dif_pos h]; simp
  · rw [dif_neg h]; simp

theorem decToStr_head_ne_zero (n : Nat) (hn : 0 < n) :
    ∀ d rest, decToStr n = d :: rest → d ≠ 48 := by
  induction n using Nat.strong_induction_on with
  | _ n ih =>
    intro d rest hl
    rw [decToStr] at hl
    by_cases h : n < 10
    · rw [dif_pos h] at hl
      simp only [List.cons.injEq] at hl
      omega
    · rw [dif_neg h] at hl
      rcases hhead : decToStr (n / 10) with _ | ⟨d0, rest0⟩
      · exact absurd hhead (decToStr_ne_nil _)
      · rw [hhead] at hl
        simp only [List.cons_append, List.cons.injEq] at hl
        have hd : d0 ≠ 48 :=
          ih (n / 10) (Nat.div_lt_self (by omega) (by omega))
            (by omega) d0 rest0 hhead
        omega

theorem decFoldl_acc : ∀ (l : List Nat) (a : Nat),
    l.foldl (fun a c => 10 * a + (c - 48)) a
      = a * 10 ^ l.length + l.foldl (fun a c => 10 * a + (c - 48)) 0 := by
  intro l
  induction l with
  | nil => intro a; simp
  | cons x xs ih =>
    intro a
    simp only [List.foldl_cons, List.length_cons]
    rw [ih (10 * a + (x - 48)), ih (10 * 0 + (x - 48))]
    ring

theorem decToStr_value (n : Nat) :
    (decToStr n).foldl (fun a c => 10 * a + (c - 48)) 0 = n := by
  induction n using Nat.strong_induction_on with
  | _ n ih =>
    rw [decToStr]
    by_cases h : n < 10
    · rw [dif_pos h]
      simp
    · rw [dif_neg h]
      rw [List.foldl_append]
      rw [ih (n / 10) (Nat.div_lt_self (by omega) (by omega))]
      simp only [List.foldl_cons, List.foldl_nil]
      omega

theorem decParse_decToStr (n : Nat) : decParse (decToStr n) = some n := by
  rcases hl : decToStr n with _ | ⟨d, rest⟩
  · exact absurd hl (decToStr_ne_nil n)
  rw [decParse]
  have hdig : ∀ c ∈ decToStr n, 48 ≤ c ∧ c ≤ 57 := decToStr_digits n
  have hall : (d :: rest).all (fun c => decide (48 ≤ c ∧ c ≤ 57)) = true := by
    rw [List.all_eq_true]
    intro c hc
    exact decide_eq_true (hdig c (hl ▸ hc))
  by_cases hn : 0 < n
  · have hd : d ≠ 48 := decToStr_head_ne_zero n hn d rest hl
    rw [if_neg (by simp [hd])]
    rw [if_pos hall]
    rw [← hl, decToStr_value]
  · have hn0 : n = 0 := by omega
    subst hn0
    have : decToStr 0 = [48] := by rw [decToStr]; simp
    rw [this] at hl
    injection hl with h1 h2
    subst h1
    subst h2
    simp [decParse]

theorem decToStr_of_value : ∀ (ds : List Nat), ds ≠ [] →
    (∀ c ∈ ds, 48 ≤ c ∧ c ≤ 57) →
    (∀ d rest, ds = d :: rest → rest ≠ [] → d ≠ 48) →
    decToStr (ds.foldl (fun a c => 10 * a + (c - 48)) 0) = ds := by
  intro ds
  induction ds using List.reverseRecOn with
  | nil => intro h; exact absurd rfl h
  | append_singleton xs x ih =>
    intro _ hdig hhead
    rcases hxs : xs with _ | ⟨d, xs2⟩
    · -- A single digit.
      have hx : 48 ≤ x ∧ x ≤ 57 := hdig x (by simp)
      simp only [List.nil_append, List.foldl_cons, List.foldl_nil]
      rw [decToStr, dif_pos (by omega)]
      have : 48 + (10 * 0 + (x - 48)) = x := by omega
      rw [this]
    · -- At least two digits: peel the last one off.
      subst hxs
      have hne : (d :: xs2) ≠ [] := by simp
      have hd : d ≠ 48 := by
        apply hhead d (xs2 ++ [x]) (by simp)
        simp
      have hddig : 48 ≤ d ∧ d ≤ 57 := hdig d (by simp)
      have hxdig : 48 ≤ x ∧ x ≤ 57 := hdig x (by simp)
      set m := (d :: xs2).foldl (fun a c => 10 * a + (c - 48)) 0 with hm
      have hmpos : 1 ≤ m := by
        rw [hm]
        simp only [List.foldl_cons]
        rw [decFoldl_acc]
        have h1 : 1 ≤ (10 * 0 + (d - 48)) := by omega
        have h2 : 1 ≤ 10 ^ xs2.length := Nat.one_le_pow _ _ (by omega)
        have := Nat.mul_le_mul h1 h2
        omega
      have hval : ((d :: xs2) ++ [x]).foldl (fun a c => 10 * a + (c - 48)) 0
          = 10 * m + (x - 48) := by
        rw [List.foldl_append]
        simp [hm]
      rw [hval]
      rw [decToStr, dif_neg (by omega)]
      have hdiv : (10 * m + (x - 48)) / 10 = m := by omega
      have hmod : (10 * m + (x - 48)) % 10 = x - 48 := by omega
      rw [hdiv, hmod]
      have hx48 : 48 + (x - 48) = x := by omega
      rw [hx48]
      congr 1
      exact ih hne
        (fun c hc => hdig c (by
          rcases List.mem_cons.mp hc with h | h <;> simp [h]))
        (fun d2 rest2 heq hrest2 => by
          injection heq with h1 h2
          subst h1
          exact hd)

theorem decToStr_decParse {ds : List Nat} {n : Nat}
    (h : decParse ds = some n) : decToStr n = ds := by
  rcases hds : ds with _ | ⟨d, rest⟩
  · subst hds; exact absurd h (by simp [decParse])
  subst hds
  rw [decParse] at h
  by_cases hlead : d = 48 ∧ rest ≠ []
  · rw [if_pos hlead] at h; exact absurd h (by simp)
  rw [if_neg hlead] at h
  by_cases hall : (d :: rest).all (fun c => decide (48 ≤ c ∧ c ≤ 57)) = true
  swap
  · rw [if_neg (by simpa using hall)] at h; exact absurd h (by simp)
  rw [if_pos (by simpa using hall)] at h
  injection h with h
  subst h
  apply decToStr_of_value
  · simp
  · intro c hc
    have := List.all_eq_true.mp hall c hc
    simpa using this
  · intro d2 rest2 heq hrest2
    injection heq with h1 h2
    subst h1
    subst h2
    intro hd48
    exact hlead ⟨hd48, hrest2⟩

/-! ## Colon-separated fields

Capability strings are colon-separated (`:` is ASCII 58).
-/

/-- Split a byte string on every colon (ASCII 58).  Splitting the empty
string yields one empty field, like Python `"".split(":")`. -/
def splitColon : List Nat → List (List Nat)
  | [] => [[]]
  | c :: rest =>
    if c = 58 then [] :: splitColon rest
    else
      match splitColon rest with
      | [] => [[c]]
      | p :: ps => (c :: p) :: ps

/-- Join fields with colons (ASCII 58). -/
def joinColon : List (List Nat) → List Nat
  | [] => []
  | [p] => p
  | p :: ps => p ++ 58 :: joinColon ps

theorem splitColon_ne_nil (s : List Nat) : splitColon s ≠ [] := by
  match s with
  | [] => simp [splitColon]
  | c :: rest =>
    rw [splitColon]
    by_cases h : c = 58
    · rw [if_pos h]; simp
    · rw [if_neg h]
      rcases hps : splitColon rest with _ | ⟨p, ps⟩ <;> simp

theorem joinColon_cons_cons (p q : List Nat) (ps : List (List Nat)) :
    joinColon (p :: q :: ps) = p ++ 58 :: joinColon (q :: ps) := rfl

theorem joinColon_splitColon (s : List Nat) :
    joinColon (splitColon s) = s := by
  induction s with
  | nil => rfl
  | cons c rest ih =>
    rw [splitColon]
    by_cases h : c = 58
    · rw [if_pos h]
      rcases hps : splitColon rest with _ | ⟨p, ps⟩
      · exact absurd hps (splitColon_ne_nil rest)
      · rw [hps] at ih
        rw [joinColon_cons_cons]
        simp [h, ih]
    · rw [if_neg h]
      rcases hps : splitColon rest with _ | ⟨p, ps⟩
      · exact absurd hps (splitColon_ne_nil rest)
      · rw [hps] at ih
        rcases ps with _ | ⟨q, ps2⟩
        · simp only [joinColon] at ih ⊢
          rw [ih]
        · rw [joinColon_cons_cons] at ih ⊢
          simp only [List.cons_append, ih]

/-! ## The capability codec

`allmydata/uri.py` is not part of the source tree; the grammar is the one
given by the specification (section 6):

    cap = "URI:" tag ":" b32(primary) [":" b32(secondary)] [":" k ":" n ":" size]

Modelled from the spec: the capability parser and emitter over that
grammar, with the per-variant field shapes of the data model (CHK-family
capabilities carry two base32 fields and the three decimal parameters
`k`, `n`, `size`; LIT carries one base32 field; the SSK / MDMF / DIR2
families carry two base32 fields).
-/

/-- The byte string of an ASCII Lean string literal. -/
def strBytes (s : String) : List Nat := s.data.map (fun c => c.toNat)

/-- A parsed capability: a tagged sum over the URI variants. -/
inductive Cap where
  | chk (key ueb : List Nat) (k n sz : Nat)
  | chkv (si ueb : List Nat) (k n sz : Nat)
  | lit (data : List Nat)
  | ssk (wk fp : List Nat)
  | sskro (rk fp : List Nat)
  | sskv (si fp : List Nat)
  | mdmf (wk fp : List Nat)
  | mdmfro (rk fp : List Nat)
  | mdmfv (si fp : List Nat)
  | dir2 (wk fp : List Nat)
  | dir2ro (rk fp : List Nat)
  | dir2v (si fp : List Nat)
deriving DecidableEq

/-- Parse the single base32 field of a LIT body. -/
def parse1 (mk : List Nat → Cap) (fields : List (List Nat)) : Option Cap :=
  match fields with
  | [p] =>
    match b32decode p with
    | some a => some (mk a)
    | _ => none
  | _ => none

/-- Parse the two base32 fields of an SSK / MDMF / DIR2-family body. -/
def parse2 (mk : List Nat → List Nat → Cap) (fields : List (List Nat)) :
    Option Cap :=
  match fields with
  | [p, q] =>
    match b32decode p, b32decode q with
    | some a, some b => some (mk a b)
    | _, _ => none
  | _ => none

/-- Parse a CHK-family body: two base32 fields and `k`, `n`, `size`. -/
def parseChk (mk : List Nat → List Nat → Nat → Nat → Nat → Cap)
    (fields : List (List Nat)) : Option Cap :=
  match fields with
  | [p, q, ks, ns, zs] =>
    match b32decode p, b32decode q, decParse ks, decParse ns, decParse zs with
    | some a, some b, some k, some n, some z => some (mk a b k n z)
    | _, _, _, _, _ => none
  | _ => none

/-- Dispatch on the tag and parse the remaining fields. -/
def parseBody (t : List Nat) (fields : List (List Nat)) : Option Cap :=
  if t = strBytes "CHK" then parseChk Cap.chk fields
  else if t = strBytes "CHK-Verifier" then parseChk Cap.chkv fields
  else if t = strBytes "LIT" then parse1 Cap.lit fields
  else if t = strBytes "SSK" then parse2 Cap.ssk fields
  else if t = strBytes "SSK-RO" then parse2 Cap.sskro fields
  else if t = strBytes "SSK-Verifier" then parse2 Cap.sskv fields
  else if t = strBytes "MDMF" then parse2 Cap.mdmf fields
  else if t = strBytes "MDMF-RO" then parse2 Cap.mdmfro fields
  else if t = strBytes "MDMF-Verifier" then parse2 Cap.mdmfv fields
  else if t = strBytes "DIR2" then parse2 Cap.dir2 fields
  else if t = strBytes "DIR2-RO" then parse2 Cap.dir2ro fields
  else if t = strBytes "DIR2-Verifier" then parse2 Cap.dir2v fields
  else none

/-- Modelled from the spec: `allmydata/uri.py from_string` is not under
src/; parse a capability string per the grammar of spec section 6. -/
def parseCap (s : List Nat) : Option Cap :=
  match splitColon s with
  | u :: t :: fields =>
    if u = strBytes "URI" then parseBody t fields else none
  | _ => none

/-- The tag token of a capability. -/
def tagToken : Cap → List Nat
  | .chk _ _ _ _ _ => strBytes "CHK"
  | .chkv _ _ _ _ _ => strBytes "CHK-Verifier"
  | .lit _ => strBytes "LIT"
  | .ssk _ _ => strBytes "SSK"
  | .sskro _ _ => strBytes "SSK-RO"
  | .sskv _ _ => strBytes "SSK-Verifier"
  | .mdmf _ _ => strBytes "MDMF"
  | .mdmfro _ _ => strBytes "MDMF-RO"
  | .mdmfv _ _ => strBytes "MDMF-Verifier"
  | .dir2 _ _ => strBytes "DIR2"
  | .dir2ro _ _ => strBytes "DIR2-RO"
  | .dir2v _ _ => strBytes "DIR2-Verifier"

/-- The encoded body fields of a capability. -/
def capFields : Cap → List (List Nat)
  | .chk a b k n z => [b32encode a, b32encode b, decToStr k, decToStr n, decToStr z]
  | .chkv a b k n z => [b32encode a, b32encode b, decToStr k, decToStr n, decToStr z]
  | .lit a => [b32encode a]
  | .ssk a b => [b32encode a, b32encode b]
  | .sskro a b => [b32encode a, b32encode b]
  | .sskv a b => [b32encode a, b32encode b]
  | .mdmf a b => [b32encode a, b32encode b]
  | .mdmfro a b => [b32encode a, b32encode b]
  | .mdmfv a b => [b32encode a, b32encode b]
  | .dir2 a b => [b32encode a, b32encode b]
  | .dir2ro a b => [b32encode a, b32encode b]
  | .dir2v a b => [b32encode a, b32encode b]

/-- Modelled from the spec: `allmydata/uri.py to_string` is not under
src/; emit a capability string per the grammar of spec section 6. -/
def emitCap (c : Cap) : List Nat :=
  joinColon (strBytes "URI" :: tagToken c :: capFields c)

theorem parse1_inv {mk : List Nat → Cap}
    {fields : List (List Nat)} {c : Cap} (h : parse1 mk fields = some c) :
    ∃ a, c = mk a ∧ fields = [b32encode a] := by
  match fields, h with
  | [p], h =>
    simp only [parse1] at h
    rcases hp : b32decode p with _ | a
    · rw [hp] at h; exact absurd h (by simp)
    rw [hp] at h
    simp only [Option.some.injEq] at h
    exact ⟨a, h.symm, by rw [b32encode_b32decode hp]⟩

theorem parse2_inv {mk : List Nat → List Nat → Cap}
    {fields : List (List Nat)} {c : Cap} (h : parse2 mk fields = some c) :
    ∃ a b, c = mk a b ∧ fields = [b32encode a, b32encode b] := by
  match fields, h with
  | [p, q], h =>
    simp only [parse2] at h
    rcases hp : b32decode p with _ | a
    · rw [hp] at h; exact absurd h (by simp)
    rcases hq : b32decode q with _ | b
    · rw [hp, hq] at h; exact absurd h (by simp)
    rw [hp, hq] at h
    simp only [Option.some.injEq] at h
    exact ⟨a, b, h.symm, by rw [b32encode_b32decode hp, b32encode_b32decode hq]⟩

theorem parseChk_inv {mk : List Nat → List Nat → Nat → Nat → Nat → Cap}
    {fields : List (List Nat)} {c : Cap} (h : parseChk mk fields = some c) :
    ∃ a b k n z, c = mk a b k n z ∧
      fields = [b32encode a, b32encode b, decToStr k, decToStr n, decToStr z] := by
  match fields, h with
  | [p, q, ks, ns, zs], h =>
    simp only [parseChk] at h
    rcases hp : b32decode p with _ | a
    · rw [hp] at h; exact absurd h (by simp)
    rcases hq : b32decode q with _ | b
    · rw [hp, hq] at h; exact absurd h (by simp)
    rcases hk : decParse ks with _ | k
    · rw [hp, hq, hk] at h; exact absurd h (by simp)
    rcases hn : decParse ns with _ | n
    · rw [hp, hq, hk, hn] at h; exact absurd h (by simp)
    rcases hz : decParse zs with _ | z
    · rw [hp, hq, hk, hn, hz] at h; exact absurd h (by simp)
    rw [hp, hq, hk, hn, hz] at h
    simp only [Option.some.injEq] at h
    refine ⟨a, b, k, n, z, h.symm, ?_⟩
    rw [b32encode_b32decode hp, b32encode_b32decode hq,
      decToStr_decParse hk, decToStr_decParse hn, decToStr_decParse hz]

theorem parseBody_inv {t : List Nat} {fields : List (List Nat)} {c : Cap}
    (h : parseBody t fields = some c) :
    t = tagToken c ∧ fields = capFields c := by
  rw [parseBody] at h
  by_cases h1 : t = strBytes "CHK"
  · rw [if_pos h1] at h
    obtain ⟨a, b, k, n, z, hc, hf⟩ := parseChk_inv h
    subst hc
    exact ⟨h1, hf⟩
  rw [if_neg h1] at h
  by_cases h2 : t = strBytes "CHK-Verifier"
  · rw [if_pos h2] at h
    obtain ⟨a, b, k, n, z, hc, hf⟩ := parseChk_inv h
    subst hc
    exact ⟨h2, hf⟩
  rw [if_neg h2] at h
  by_cases h3 : t = strBytes "LIT"
  · rw [if_pos h3] at h
    obtain ⟨a, hc, hf⟩ := parse1_inv h
    subst hc
    exact ⟨h3, hf⟩
  rw [if_neg h3] at h
  by_cases h4 : t = strBytes "SSK"
  · rw [if_pos h4] at h
    obtain ⟨a, b, hc, hf⟩ := parse2_inv h
    subst hc
    exact ⟨h4, hf⟩
  rw [if_neg h4] at h
  by_cases h5 : t = strBytes "SSK-RO"
  · rw [if_pos h5] at h
    obtain ⟨a, b, hc, hf⟩ := parse2_inv h
    subst hc
    exact ⟨h5, hf⟩
  rw [if_neg h5] at h
  by_cases h6 : t = strBytes "SSK-Verifier"
  · rw [if_pos h6] at h
    obtain ⟨a, b, hc, hf⟩ := parse2_inv h
    subst hc
    exact ⟨h6, hf⟩
  rw [if_neg h6] at h
  by_cases h7 : t = strBytes "MDMF"
  · rw [if_pos h7] at h
    obtain ⟨a, b, hc, hf⟩ := parse2_inv h
    subst hc
    exact ⟨h7, hf⟩
  rw [if_neg h7] at h
  by_cases h8 : t = strBytes "MDMF-RO"
  · rw [if_pos h8] at h
    obtain ⟨a, b, hc, hf⟩ := parse2_inv h
    subst hc
    exact ⟨h8, hf⟩
  rw [if_neg h8] at h
  by_cases h9 : t = strBytes "MDMF-Verifier"
  · rw [if_pos h9] at h
    obtain ⟨a, b, hc, hf⟩ := parse2_inv h
    subst hc
    exact ⟨h9, hf⟩
  rw [if_neg h9] at h
  by_cases h10 : t = strBytes "DIR2"
  · rw [if_pos h10] at h
    obtain ⟨a, b, hc, hf⟩ := parse2_inv h
    subst hc
    exact ⟨h10, hf⟩
  rw [if_neg h10] at h
  by_cases h11 : t = strBytes "DIR2-RO"
  · rw [if_pos h11] at h
    obtain ⟨a, b, hc, hf⟩ := parse2_inv h
    subst hc
    exact ⟨h11, hf⟩
  rw [if_neg h11] at h
  by_cases h12 : t = strBytes "DIR2-Verifier"
  · rw [if_pos h12] at h
    obtain ⟨a, b, hc, hf⟩ := parse2_inv h
    subst hc
    exact ⟨h12, hf⟩
  rw [if_neg h12] at h
  exact absurd h (by simp)

/-- C4.  For every valid capability string, parsing and re-emitting
reproduces the original string byte-for-byte, and parsing the emitted
string yields the same capability value. -/
theorem cap_parse_emit_parse_id (s : List Nat) (c : Cap)
    (h : parseCap s = some c) :
    emitCap c = s ∧ parseCap (emitCap c) = some c := by
  have hemit : emitCap c = s := by
    rw [parseCap] at h
    rcases hsplit : splitColon s with _ | ⟨u, rest⟩
    · exact absurd hsplit (splitColon_ne_nil s)
    rcases rest with _ | ⟨t, fields⟩
    · rw [hsplit] at h; exact absurd h (by simp [parseCap])
    rw [hsplit] at h
    have h2 : (if u = strBytes "URI" then parseBody t fields else none)
        = some c := h
    by_cases hu : u = strBytes "URI"
    swap
    · rw [if_neg hu] at h2; exact absurd h2 (by simp)
    rw [if_pos hu] at h2
    obtain ⟨ht, hf⟩ := parseBody_inv h2
    rw [emitCap, ← ht, ← hf, ← hu, ← hsplit]
    exact joinColon_splitColon s
  exact ⟨hemit, by rw [hemit]; exact h⟩

/-! ## The node maker

`allmydata/nodemaker.py` and `allmydata/unknown.py` are not part of the
source tree.  Modelled from the spec: `create_node_from_uri` treats
capabilities as a tagged sum and dispatches by variant; unknown
(from-the-future) capabilities produce an unknown node whose read-only
URI carries the `ro.` marker, and `ro.`-prefixed opaque readcaps are
accepted and preserved round-trip.  The observable node interface is the
set of interface predicates and URI accessors asserted by
`test_client.py NodeMaker.test_maker`.
-/

/-- The observable behaviour of a filesystem node: which interfaces it
provides (`IFileNode`, `IImmutableFileNode`, `IMutableFileNode`,
`IDirectoryNode`), the `is_readonly` / `is_mutable` / `is_unknown`
predicates and the URI accessors. -/
structure Node where
  isFileNode : Bool
  isImmutableFileNode : Bool
  isMutableFileNode : Bool
  isDirNode : Bool
  readonly : Bool
  mutableFlag : Bool
  unknown : Bool
  uri : List Nat
  writeUri : Option (List Nat)
  readonlyUri : Option (List Nat)
deriving DecidableEq

/-- Modelled from the spec: `allmydata/nodemaker.py` is not under src/;
a node for a recognized capability, dispatched on the variant tag. -/
def nodeFromCap (c : Cap) : Node :=
  match c with
  | .chk _ _ _ _ _ =>
    { isFileNode := true, isImmutableFileNode := true,
      isMutableFileNode := false, isDirNode := false,
      readonly := true, mutableFlag := false, unknown := false,
      uri := emitCap c, writeUri := none, readonlyUri := some (emitCap c) }
  | .lit _ =>
    { isFileNode := true, isImmutableFileNode := true,
      isMutableFileNode := false, isDirNode := false,
      readonly := true, mutableFlag := false, unknown := false,
      uri := emitCap c, writeUri := none, readonlyUri := some (emitCap c) }
  | .chkv _ _ _ _ _ =>
    { isFileNode := true, isImmutableFileNode := true,
      isMutableFileNode := false, isDirNode := false,
      readonly := true, mutableFlag := false, unknown := false,
      uri := emitCap c, writeUri := none, readonlyUri := some (emitCap c) }
  | .ssk _ _ =>
    { isFileNode := true, isImmutableFileNode := false,
      isMutableFileNode := true, isDirNode := false,
      readonly := false, mutableFlag := true, unknown := false,
      uri := emitCap c, writeUri := some (emitCap c), readonlyUri := none }
  | .sskro _ _ =>
    { isFileNode := true, isImmutableFileNode := false,
      isMutableFileNode := true, isDirNode := false,
      readonly := true, mutableFlag := true, unknown := false,
      uri := emitCap c, writeUri := none, readonlyUri := some (emitCap c) }
  | .sskv _ _ =>
    { isFileNode := true, isImmutableFileNode := false,
      isMutableFileNode := true, isDirNode := false,
      readonly := true, mutableFlag := true, unknown := false,
      uri := emitCap c, writeUri := none, readonlyUri := none }
  | .mdmf _ _ =>
    { isFileNode := true, isImmutableFileNode := false,
      isMutableFileNode := true, isDirNode := false,
      readonly := false, mutableFlag := true, unknown := false,
      uri := emitCap c, writeUri := some (emitCap c), readonlyUri := none }
  | .mdmfro _ _ =>
    { isFileNode := true, isImmutableFileNode := false,
      isMutableFileNode := true, isDirNode := false,
      readonly := true, mutableFlag := true, unknown := false,
      uri := emitCap c, writeUri := none, readonlyUri := some (emitCap c) }
  | .mdmfv _ _ =>
    { isFileNode := true, isImmutableFileNode := false,
      isMutableFileNode := true, isDirNode := false,
      readonly := true, mutableFlag := true, unknown := false,
      uri := emitCap c, writeUri := none, readonlyUri := none }
  | .dir2 _ _ =>
    { isFileNode := false, isImmutableFileNode := false,
      isMutableFileNode := false, isDirNode := true,
      readonly := false, mutableFlag := true, unknown := false,
      uri := emitCap c, writeUri := some (emitCap c), readonlyUri := none }
  | .dir2ro _ _ =>
    { isFileNode := false, isImmutableFileNode := false,
      isMutableFileNode := false, isDirNode := true,
      readonly := true, mutableFlag := true, unknown := false,
      uri := emitCap c, writeUri := none, readonlyUri := some (emitCap c) }
  | .dir2v _ _ =>
    { isFileNode := false, isImmutableFileNode := false,
      isMutableFileNode := false, isDirNode := true,
      readonly := true, mutableFlag := true, unknown := false,
      uri := emitCap c, writeUri := none, readonlyUri := none }

/-- The `ro.` marker placed on alleged read-only caps of unknown nodes. -/
def roTag : List Nat := strBytes "ro."

/-- Strip an existing `ro.` marker so the marker is never doubled. -/
def stripRo (ro : List Nat) : List Nat :=
  if roTag.isPrefixOf ro then ro.drop 3 else ro

/-- Modelled from the spec: `allmydata/unknown.py UnknownNode` is not
under src/; a node for an unrecognized (from-the-future) capability
pair, preserving `ro.`-prefixed opaque readcaps round-trip. -/
def unknownNode (rw : List Nat) (ro : Option (List Nat)) : Node :=
  { isFileNode := false, isImmutableFileNode := false,
    isMutableFileNode := false, isDirNode := false,
    readonly := false, mutableFlag := false, unknown := true,
    uri := rw, writeUri := some rw,
    readonlyUri :=
      match ro with
      | none => none
      | some r => some (roTag ++ stripRo r) }

/-- Modelled from the spec: `create_node_from_uri` parses the read-write
capability string and dispatches on its variant; unrecognized
capabilities fall back to an unknown node. -/
def createNodeFromUri (rw : List Nat) (ro : Option (List Nat)) : Node :=
  match parseCap rw with
  | some c => nodeFromCap c
  | none => unknownNode rw ro

/-- C5.  `create_node_from_uri` classifies every capability by its
variant tag: CHK and LIT yield immutable, read-only, non-directory file
nodes; SSK yields a writable mutable file node; SSK-RO a read-only
mutable file node; DIR2 a writable directory node; DIR2-RO a read-only
directory node. -/
theorem create_node_classifies_by_variant (s : List Nat) (c : Cap)
    (h : parseCap s = some c) :
    (∀ a b k n z, c = Cap.chk a b k n z →
      (createNodeFromUri s none).isFileNode = true ∧
      (createNodeFromUri s none).isImmutableFileNode = true ∧
      (createNodeFromUri s none).isMutableFileNode = false ∧
      (createNodeFromUri s none).isDirNode = false ∧
      (createNodeFromUri s none).readonly = true ∧
      (createNodeFromUri s none).mutableFlag = false) ∧
    (∀ a, c = Cap.lit a →
      (createNodeFromUri s none).isFileNode = true ∧
      (createNodeFromUri s none).isImmutableFileNode = true ∧
      (createNodeFromUri s none).isMutableFileNode = false ∧
      (createNodeFromUri s none).isDirNode = false ∧
      (createNodeFromUri s none).readonly = true ∧
      (createNodeFromUri s none).mutableFlag = false) ∧
    (∀ a b, c = Cap.ssk a b →
      (createNodeFromUri s none).isFileNode = true ∧
      (createNodeFromUri s none).isImmutableFileNode = false ∧
      (createNodeFromUri s none).isMutableFileNode = true ∧
      (createNodeFromUri s none).isDirNode = false ∧
      (createNodeFromUri s none).readonly = false ∧
      (createNodeFromUri s none).mutableFlag = true) ∧
    (∀ a b, c = Cap.sskro a b →
      (createNodeFromUri s none).isFileNode = true ∧
      (createNodeFromUri s none).isImmutableFileNode = false ∧
      (createNodeFromUri s none).isMutableFileNode = true ∧
      (createNodeFromUri s none).isDirNode = false ∧
      (createNodeFromUri s none).readonly = true ∧
      (createNodeFromUri s none).mutableFlag = true) ∧
    (∀ a b, c = Cap.dir2 a b →
      (createNodeFromUri s none).isFileNode = false ∧
      (createNodeFromUri s none).isDirNode = true ∧
      (createNodeFromUri s none).readonly = false ∧
      (createNodeFromUri s none).mutableFlag = true) ∧
    (∀ a b, c = Cap.dir2ro a b →
      (createNodeFromUri s none).isFileNode = false ∧
      (createNodeFromUri s none).isDirNode = true ∧
      (createNodeFromUri s none).readonly = true ∧
      (createNodeFromUri s none).mutableFlag = true) := by
  have hnode : createNodeFromUri s none = nodeFromCap c := by
    rw [createNodeFromUri, h]
  refine ⟨?_, ?_, ?_, ?_, ?_, ?_⟩ <;>
    · intros
      subst c
      rw [hnode]
      simp [nodeFromCap]

/-- C6.  An unknown capability pair produces an unknown node that is
neither a file nor a directory node; `get_uri` and `get_write_uri`
return the rw capability unchanged; `get_readonly_uri` returns the ro
capability carrying the `ro.` marker, and an already `ro.`-prefixed
opaque readcap is preserved round-trip. -/
theorem create_node_unknown_cap (rw ro : List Nat)
    (h : parseCap rw = none) :
    (createNodeFromUri rw (some ro)).unknown = true ∧
    (createNodeFromUri rw (some ro)).isFileNode = false ∧
    (createNodeFromUri rw (some ro)).isImmutableFileNode = false ∧
    (createNodeFromUri rw (some ro)).isMutableFileNode = false ∧
    (createNodeFromUri rw (some ro)).isDirNode = false ∧
    (createNodeFromUri rw (some ro)).uri = rw ∧
    (createNodeFromUri rw (some ro)).writeUri = some rw ∧
    (roTag.isPrefixOf ro = false →
      (createNodeFromUri rw (some ro)).readonlyUri = some (roTag ++ ro)) ∧
    (roTag.isPrefixOf ro = true →
      (createNodeFromUri rw (some ro)).readonlyUri = some ro) := by
  have hnode : createNodeFromUri rw (some ro) = unknownNode rw (some ro) := by
    rw [createNodeFromUri, h]
  rw [hnode]
  refine ⟨rfl, rfl, rfl, rfl, rfl, rfl, rfl, ?_, ?_⟩
  · intro hp
    show some (roTag ++ stripRo ro) = some (roTag ++ ro)
    rw [stripRo, if_neg (by simp [hp])]
  · intro hp
    show some (roTag ++ stripRo ro) = some ro
    have hpre : roTag <+: ro := List.isPrefixOf_iff_prefix.mp hp
    obtain ⟨t, ht⟩ := hpre
    rw [stripRo, if_pos (by simp [hp])]
    have hdrop : ro.drop 3 = t := by
      rw [← ht]
      have h3 : roTag.length = 3 := rfl
      rw [← h3]
      exact List.drop_left roTag t
    rw [hdrop, ht]

/-! Concrete capability strings taken from `test_client.py
NodeMaker.test_maker`, with their parsed values. -/

def chkCapStr : List Nat :=
  strBytes "URI:CHK:6nmrpsubgbe57udnexlkiwzmlu:bjt7j6hshrlmadjyr7otq3dc24end5meo5xcr5xe5r663po6itmq:3:10:7277"

def chkCapVal : Cap :=
  Cap.chk
    [243, 89, 23, 202, 129, 48, 73, 223, 208, 109, 37, 214, 164, 91, 44, 93]
    [10, 103, 244, 248, 242, 60, 86, 192, 13, 56, 143, 221, 56, 108, 98, 215,
     8, 209, 245, 132, 119, 110, 40, 246, 228, 236, 125, 237, 189, 222, 68, 217]
    3 10 7277

def sskCapStr : List Nat :=
  strBytes "URI:SSK:n6x24zd3seu725yluj75q5boaa:mm6yoqjhl6ueh7iereldqxue4nene4wl7rqfjfybqrehdqmqskvq"

def sskCapVal : Cap :=
  Cap.ssk
    [111, 175, 174, 100, 123, 145, 41, 253, 119, 11, 162, 127, 216, 116, 46, 0]
    [99, 61, 135, 65, 39, 95, 168, 67, 253, 4, 137, 22, 56, 94, 132, 227,
     72, 210, 114, 203, 252, 96, 84, 151, 1, 132, 72, 113, 193, 144, 146, 171]

def dir2CapStr : List Nat :=
  strBytes "URI:DIR2:n6x24zd3seu725yluj75q5boaa:mm6yoqjhl6ueh7iereldqxue4nene4wl7rqfjfybqrehdqmqskvq"

def dir2CapVal : Cap :=
  Cap.dir2
    [111, 175, 174, 100, 123, 145, 41, 253, 119, 11, 162, 127, 216, 116, 46, 0]
    [99, 61, 135, 65, 39, 95, 168, 67, 253, 4, 137, 22, 56, 94, 132, 227,
     72, 210, 114, 203, 252, 96, 84, 151, 1, 132, 72, 113, 193, 144, 146, 171]

/-- Witness for C4 at the CHK capability string used by the test suite. -/
theorem cap_parse_emit_parse_id_witness :
    emitCap chkCapVal = chkCapStr ∧ parseCap (emitCap chkCapVal) = some chkCapVal :=
  cap_parse_emit_parse_id chkCapStr chkCapVal (by decide)

/-- Witness for C5 at the CHK, SSK and DIR2 capability strings used by
the test suite. -/
theorem create_node_classifies_by_variant_witness :
    ((createNodeFromUri chkCapStr none).isImmutableFileNode = true ∧
      (createNodeFromUri chkCapStr none).readonly = true) ∧
    ((createNodeFromUri sskCapStr none).isMutableFileNode = true ∧
      (createNodeFromUri sskCapStr none).readonly = false) ∧
    ((createNodeFromUri dir2CapStr none).isDirNode = true ∧
      (createNodeFromUri dir2CapStr none).readonly = false) := by
  have h1 := create_node_classifies_by_variant chkCapStr chkCapVal (by decide)
  have h2 := create_node_classifies_by_variant sskCapStr sskCapVal (by decide)
  have h3 := create_node_classifies_by_variant dir2CapStr dir2CapVal (by decide)
  have hchk := h1.1 _ _ _ _ _ rfl
  have hssk := h2.2.2.1 _ _ rfl
  have hdir := h3.2.2.2.2.1 _ _ rfl
  exact ⟨⟨hchk.2.1, hchk.2.2.2.2.1⟩, ⟨hssk.2.2.1, hssk.2.2.2.2.1⟩,
    ⟨hdir.2.1, hdir.2.2.1⟩⟩

/-- Witness for C6 at the from-the-future capability pair used by the
test suite. -/
theorem create_node_unknown_cap_witness :
    (createNodeFromUri (strBytes "lafs://from_the_future")
      (some (strBytes "lafs://readonly_from_the_future"))).unknown = true ∧
    (createNodeFromUri (strBytes "lafs://from_the_future")
        (some (strBytes "lafs://readonly_from_the_future"))).readonlyUri
      = some (roTag ++ strBytes "lafs://readonly_from_the_future") := by
  have h := create_node_unknown_cap (strBytes "lafs://from_the_future")
    (strBytes "lafs://readonly_from_the_future") (by decide)
  exact ⟨h.1, h.2.2.2.2.2.2.2.1 (by decide)⟩

/-! ## SHA-1 and SHA-256

Executable models of the two hash functions, on byte strings.  SHA-1 is
what `allmydata/util/hashutil.py permute_server_hash` actually applies to
`peer_selection_index + permutation_seed`; SHA-256 is what the
specification claims.  Words are `Nat` reduced mod `2 ^ 32`.
-/

/-- Reduce to a 32-bit word. -/
def mask32 (n : Nat) : Nat := n % 4294967296

/-- Bitwise complement of a 32-bit word. -/
def not32 (w : Nat) : Nat := w ^^^ 4294967295

/-- Rotate a 32-bit word left by `k` (for `0 < k < 32`, `w < 2 ^ 32`). -/
def rotl32 (k w : Nat) : Nat := mask32 (w <<< k) ||| (w >>> (32 - k))

/-- Big-endian 8-byte encoding of a length in bits. -/
def be8 (n : Nat) : List Nat :=
  (List.range 8).map (fun i => (n >>> (8 * (7 - i))) &&& 255)

/-- Big-endian bytes of a 32-bit word. -/
def wordBytes (w : Nat) : List Nat :=
  [(w >>> 24) &&& 255, (w >>> 16) &&& 255, (w >>> 8) &&& 255, w &&& 255]

/-- Merkle–Damgård padding shared by SHA-1 and SHA-256: a `0x80` byte,
zeros to 56 mod 64, and the 64-bit big-endian bit length. -/
def shaPad (msg : List Nat) : List Nat :=
  msg ++ 128 :: List.replicate ((119 - msg.length % 64) % 64) 0
    ++ be8 (8 * msg.length)

/-- Group bytes into big-endian 32-bit words. -/
def wordsOf : List Nat → List Nat
  | a :: b :: c :: d :: r => (((a * 256 + b) * 256 + c) * 256 + d) :: wordsOf r
  | _ => []

/-- Split a word list into 16-word blocks, dropping any incomplete final
block (padding guarantees a whole number of blocks). -/
def blocksOf16 : List Nat → List (List Nat)
  | a1 :: a2 :: a3 :: a4 :: a5 :: a6 :: a7 :: a8 ::
    a9 :: a10 :: a11 :: a12 :: a13 :: a14 :: a15 :: a16 :: r =>
      [a1, a2, a3, a4, a5, a6, a7, a8,
       a9, a10, a11, a12, a13, a14, a15, a16] :: blocksOf16 r
  | _ => []

/-- The 80-entry SHA-1 message schedule of one block. -/
def sha1W (block : List Nat) : List Nat :=
  (List.range 80).foldl
    (fun acc i =>
      if i < 16 then acc ++ [block.getD i 0]
      else acc ++ [rotl32 1 ((acc.getD (i - 3) 0) ^^^ (acc.getD (i - 8) 0)
        ^^^ (acc.getD (i - 14) 0) ^^^ (acc.getD (i - 16) 0))])
    []

/-- The SHA-1 round function. -/
def sha1F (i b c d : Nat) : Nat :=
  if i < 20 then (b &&& c) ||| (not32 b &&& d)
  else if i < 40 then b ^^^ c ^^^ d
  else if i < 60 then (b &&& c) ||| (b &&& d) ||| (c &&& d)
  else b ^^^ c ^^^ d

/-- The SHA-1 round constants. -/
def sha1K (i : Nat) : Nat :=
  if i < 20 then 1518500249
  else if i < 40 then 1859775393
  else if i < 60 then 2400959708
  else 3395469782

/-- One SHA-1 block compression. -/
def sha1Block (h : Nat × Nat × Nat × Nat × Nat) (block : List Nat) :
    Nat × Nat × Nat × Nat × Nat :=
  let w := sha1W block
  let s := (List.range 80).foldl
    (fun s i =>
      match s with
      | (a, b, c, d, e) =>
        (mask32 (rotl32 5 a + sha1F i b c d + e + sha1K i + w.getD i 0),
         a, rotl32 30 b, c, d))
    (h.1, h.2.1, h.2.2.1, h.2.2.2.1, h.2.2.2.2)
  match s, h with
  | (a, b, c, d, e), (h0, h1, h2, h3, h4) =>
    (mask32 (h0 + a), mask32 (h1 + b), mask32 (h2 + c),
     mask32 (h3 + d), mask32 (h4 + e))

/-- SHA-1 of a byte string. -/
def sha1 (msg : List Nat) : List Nat :=
  let blocks := blocksOf16 (wordsOf (shaPad msg))
  match blocks.foldl sha1Block
    (1732584193, 4023233417, 2562383102, 271733878, 3285377520) with
  | (h0, h1, h2, h3, h4) => catMap wordBytes [h0, h1, h2, h3, h4]

/-- The SHA-256 round constants (FIPS 180, written in decimal). -/
def sha256K : List Nat :=
  [1116352408, 1899447441, 3049323471, 3921009573,
   961987163, 1508970993, 2453635748, 2870763221,
   3624381080, 310598401, 607225278, 1426881987,
   1925078388, 2162078206, 2614888103, 3248222580,
   3835390401, 4022224774, 264347078, 604807628,
   770255983, 1249150122, 1555081692, 1996064986,
   2554220882, 2821834349, 2952996808, 3210313671,
   3336571891, 3584528711, 113926993, 338241895,
   666307205, 773529912, 1294757372, 1396182291,
   1695183700, 1986661051, 2177026350, 2456956037,
   2730485921, 2820302411, 3259730800, 3345764771,
   3516065817, 3600352804, 4094571909, 275423344,
   430227734, 506948616, 659060556, 883997877,
   958139571, 1322822218, 1537002063, 1747873779,
   1955562222, 2024104815, 2227730452, 2361852424,
   2428436474, 2756734187, 3204031479, 3329325298]

/-- Rotate a 32-bit word right by `k`. -/
def rotr32 (k w : Nat) : Nat := (w >>> k) ||| mask32 (w <<< (32 - k))

/-- The 64-entry SHA-256 message schedule of one block. -/
def sha256W (block : List Nat) : List Nat :=
  (List.range 64).foldl
    (fun acc i =>
      if i < 16 then acc ++ [block.getD i 0]
      else
        let w15 := acc.getD (i - 15) 0
        let w2 := acc.getD (i - 2) 0
        let s0 := rotr32 7 w15 ^^^ rotr32 18 w15 ^^^ (w15 >>> 3)
        let s1 := rotr32 17 w2 ^^^ rotr32 19 w2 ^^^ (w2 >>> 10)
        acc ++ [mask32 (acc.getD (i - 16) 0 + s0 + acc.getD (i - 7) 0 + s1)])
    []

/-- One SHA-256 block compression. -/
def sha256Block (h : List Nat) (block : List Nat) : List Nat :=
  let w := sha256W block
  let s := (List.range 64).foldl
    (fun s i =>
      match s with
      | (a, b, c, d, e, f, g, hh) =>
        let s1 := rotr32 6 e ^^^ rotr32 11 e ^^^ rotr32 25 e
        let ch := (e &&& f) ^^^ (not32 e &&& g)
        let t1 := mask32 (hh + s1 + ch + sha256K.getD i 0 + w.getD i 0)
        let s0 := rotr32 2 a ^^^ rotr32 13 a ^^^ rotr32 22 a
        let mj := (a &&& b) ^^^ (a &&& c) ^^^ (b &&& c)
        let t2 := mask32 (s0 + mj)
        (mask32 (t1 + t2), a, b, c, mask32 (d + t1), e, f, g))
    (h.getD 0 0, h.getD 1 0, h.getD 2 0, h.getD 3 0,
     h.getD 4 0, h.getD 5 0, h.getD 6 0, h.getD 7 0)
  match s with
  | (a, b, c, d, e, f, g, hh) =>
    [mask32 (h.getD 0 0 + a), mask32 (h.getD 1 0 + b),
     mask32 (h.getD 2 0 + c), mask32 (h.getD 3 0 + d),
     mask32 (h.getD 4 0 + e), mask32 (h.getD 5 0 + f),
     mask32 (h.getD 6 0 + g), mask32 (h.getD 7 0 + hh)]

/-- SHA-256 of a byte string. -/
def sha256 (msg : List Nat) : List Nat :=
  let blocks := blocksOf16 (wordsOf (shaPad msg))
  catMap wordBytes
    (blocks.foldl sha256Block
      [1779033703, 3144134277, 1013904242, 2773480762,
       1359893119, 2600822924, 528734635, 1541459225])

/-- SHA-1 known-answer check (FIPS 180 test vector). -/
theorem sha1_abc :
    sha1 (strBytes "abc")
      = [169, 153, 62, 54, 71, 6, 129, 106, 186, 62,
         37, 113, 120, 80, 194, 108, 156, 208, 216, 157] := by
  decide

/-- SHA-256 known-answer check (FIPS 180 test vector). -/
theorem sha256_abc :
    sha256 (strBytes "abc")
      = [186, 120, 22, 191, 143, 1, 207, 234, 65, 65,
         64, 222, 93, 174, 34, 35, 176, 3, 97, 163,
         150, 23, 122, 156, 180, 16, 255, 97, 242, 0,
         21, 173] := by
  decide

/-! ## Stable sorting

Python's `sorted` is a stable sort; the server-selection code sorts the
connected servers by a key.  We model it with stable insertion sort.
-/

/-- Insert `x` before the first element `y` with `le x y`. -/
def insertLe (le : α → α → Bool) (x : α) : List α → List α
  | [] => [x]
  | y :: ys => if le x y then x :: y :: ys else y :: insertLe le x ys

/-- Stable insertion sort: elements with equal keys keep their original
relative order, like Python `sorted`. -/
def sortLe (le : α → α → Bool) (l : List α) : List α :=
  l.foldr (insertLe le) []

theorem insertLe_perm (le : α → α → Bool) (x : α) (l : List α) :
    List.Perm (insertLe le x l) (x :: l) := by
  induction l with
  | nil => exact List.Perm.refl _
  | cons y ys ih =>
    simp only [insertLe]
    by_cases h : le x y = true
    · rw [if_pos h]
    · rw [if_neg h]
      exact List.Perm.trans (List.Perm.cons y ih) (List.Perm.swap x y ys)

theorem sortLe_perm (le : α → α → Bool) (l : List α) :
    List.Perm (sortLe le l) l := by
  induction l with
  | nil => exact List.Perm.refl _
  | cons x xs ih =>
    exact List.Perm.trans (insertLe_perm le x _) (List.Perm.cons x ih)

theorem mem_sortLe {le : α → α → Bool} {l : List α} {z : α} :
    z ∈ sortLe le l ↔ z ∈ l :=
  (sortLe_perm le l).mem_iff

theorem insertLe_pairwise (le : α → α → Bool)
    (htot : ∀ a b, le a b = true ∨ le b a = true)
    (htrans : ∀ a b c, le a b = true → le b c = true → le a c = true)
    (x : α) (l : List α) (hl : l.Pairwise (fun a b => le a b = true)) :
    (insertLe le x l).Pairwise (fun a b => le a b = true) := by
  induction l with
  | nil => simp [insertLe]
  | cons y ys ih =>
    simp only [insertLe]
    rcases List.pairwise_cons.mp hl with ⟨hy, hys⟩
    by_cases h : le x y = true
    · rw [if_pos h]
      refine List.pairwise_cons.mpr ⟨?_, hl⟩
      intro z hz
      rcases List.mem_cons.mp hz with rfl | hz
      · exact h
      · exact htrans x y z h (hy z hz)
    · rw [if_neg h]
      refine List.pairwise_cons.mpr ⟨?_, ih hys⟩
      intro z hz
      rcases List.mem_cons.mp ((insertLe_perm le x ys).mem_iff.mp hz)
        with rfl | hz2
      · rcases htot y z with hyz | hzy
        · exact hyz
        · exact absurd hzy h
      · exact hy z hz2

theorem sortLe_pairwise (le : α → α → Bool)
    (htot : ∀ a b, le a b = true ∨ le b a = true)
    (htrans : ∀ a b c, le a b = true → le b c = true → le a c = true)
    (l : List α) :
    (sortLe le l).Pairwise (fun a b => le a b = true) := by
  induction l with
  | nil => simp [sortLe]
  | cons x xs ih => exact insertLe_pairwise le htot htrans x _ ih

theorem insertLe_skip (le : α → α → Bool) (x : α) :
    ∀ (A B : List α), (∀ a ∈ A, le x a = false) →
    insertLe le x (A ++ B) = A ++ insertLe le x B := by
  intro A
  induction A with
  | nil => intro B _; rfl
  | cons a as ih =>
    intro B h
    have ha : le x a = false := h a (List.mem_cons_self a as)
    simp only [List.cons_append, insertLe, List.append_eq]
    rw [if_neg (by simp [ha])]
    rw [ih B fun b hb => h b (List.mem_cons_of_mem a hb)]

theorem insertLe_congr (le le2 : α → α → Bool) (x : α) :
    ∀ (A : List α), (∀ a ∈ A, le x a = le2 x a) →
    insertLe le x A = insertLe le2 x A := by
  intro A
  induction A with
  | nil => intro _; rfl
  | cons a as ih =>
    intro h
    have ha : le x a = le2 x a := h a (List.mem_cons_self a as)
    simp only [insertLe, ha]
    by_cases h2 : le2 x a = true
    · rw [if_pos h2, if_pos h2]
    · rw [if_neg h2, if_neg h2,
        ih fun b hb => h b (List.mem_cons_of_mem a hb)]

theorem insertLe_front (le : α → α → Bool) (x : α) :
    ∀ (A B : List α), (∀ b ∈ B, le x b = true) →
    insertLe le x (A ++ B) = insertLe le x A ++ B
    ∨ (insertLe le x (A ++ B) = A ++ x :: B ∧ insertLe le x A = A ++ [x]) := by
  intro A
  induction A with
  | nil =>
    intro B h
    rcases B with _ | ⟨b, bs⟩
    · left; rfl
    · right
      constructor
      · simp only [List.nil_append, insertLe]
        rw [if_pos (h b (List.mem_cons_self b bs))]
      · rfl
  | cons a as ih =>
    intro B h
    by_cases hxa : le x a = true
    · left
      simp only [List.cons_append, insertLe, List.append_eq]
      rw [if_pos hxa, if_pos hxa]
      rfl
    · rcases ih B h with h1 | ⟨h1, h2⟩
      · left
        simp only [List.cons_append, insertLe, List.append_eq]
        rw [if_neg (by simp [hxa]), if_neg (by simp [hxa]), h1]
        simp
      · right
        constructor
        · simp only [List.cons_append, insertLe, List.append_eq]
          rw [if_neg (by simp [hxa]), h1]
        · simp only [insertLe]
          rw [if_neg (by simp [hxa]), h2]
          rfl

/-- Lexicographic comparison of the key pair
`(server is not preferred, hash of server)`: preferred servers sort
before unpreferred ones, ties are broken by `hle`.  This is exactly the
Python tuple key `(server not in preferred_servers, permuted_hash)`. -/
def combLe (pred : α → Bool) (hle : α → α → Bool) (a b : α) : Bool :=
  if pred a && !pred b then true
  else if !pred a && pred b then false
  else hle a b

/-- Stably sorting by the lexicographic pair key moves the preferred
elements to the front, each part internally sorted by `hle` alone. -/
theorem sortLe_pref_decomp (pred : α → Bool) (hle : α → α → Bool)
    (l : List α) :
    sortLe (combLe pred hle) l
      = sortLe hle (l.filter pred)
        ++ sortLe hle (l.filter (fun a => !pred a)) := by
  induction l with
  | nil => rfl
  | cons z rest ih =>
    have hstep : sortLe (combLe pred hle) (z :: rest)
        = insertLe (combLe pred hle) z (sortLe (combLe pred hle) rest) := rfl
    set A := sortLe hle (rest.filter pred) with hA
    set B := sortLe hle (rest.filter (fun a => !pred a)) with hB
    have hAmem : ∀ a ∈ A, pred a = true := by
      intro a ha
      have : a ∈ rest.filter pred := mem_sortLe.mp ha
      exact (List.mem_filter.mp this).2
    have hBmem : ∀ b ∈ B, pred b = false := by
      intro b hb
      have : b ∈ rest.filter (fun a => !pred a) := mem_sortLe.mp hb
      have := (List.mem_filter.mp this).2
      simpa using this
    rw [hstep, ih]
    by_cases hz : pred z = true
    · have hfp : (z :: rest).filter pred = z :: rest.filter pred := by
        simp [List.filter_cons, hz]
      have hfn : (z :: rest).filter (fun a => !pred a)
          = rest.filter (fun a => !pred a) := by
        simp [List.filter_cons, hz]
      have hcongr : ∀ a ∈ A, combLe pred hle z a = hle z a := by
        intro a ha
        simp [combLe, hz, hAmem a ha]
      have hfront : ∀ b ∈ B, combLe pred hle z b = true := by
        intro b hb
        simp [combLe, hz, hBmem b hb]
      rcases insertLe_front (combLe pred hle) z A B hfront with h1 | ⟨h1, h2⟩
      · rw [h1, hfp, hfn]
        have : sortLe hle (z :: rest.filter pred) = insertLe hle z A := rfl
        rw [this, ← insertLe_congr _ _ _ _ hcongr]
      · rw [h1, hfp, hfn]
        have : sortLe hle (z :: rest.filter pred) = insertLe hle z A := rfl
        rw [this, ← insertLe_congr _ _ _ _ hcongr, h2]
        simp
    · have hzf : pred z = false := by simpa using hz
      have hfp : (z :: rest).filter pred = rest.filter pred := by
        simp [List.filter_cons, hzf]
      have hfn : (z :: rest).filter (fun a => !pred a)
          = z :: rest.filter (fun a => !pred a) := by
        simp [List.filter_cons, hzf]
      have hskip : ∀ a ∈ A, combLe pred hle z a = false := by
        intro a ha
        simp [combLe, hzf, hAmem a ha]
      have hcongr : ∀ b ∈ B, combLe pred hle z b = hle z b := by
        intro b hb
        simp [combLe, hzf, hBmem b hb]
      rw [insertLe_skip _ _ _ _ hskip, hfp, hfn]
      have : sortLe hle (z :: rest.filter (fun a => !pred a))
          = insertLe hle z B := rfl
      rw [this, ← insertLe_congr _ _ _ _ hcongr]

/-- Lexicographic (Python bytes) comparison of byte strings. -/
def bytesLe : List Nat → List Nat → Bool
  | [], _ => true
  | _ :: _, [] => false
  | a :: as, b :: bs =>
    if a < b then true else if b < a then false else bytesLe as bs

theorem bytesLe_total : ∀ (a b : List Nat),
    bytesLe a b = true ∨ bytesLe b a = true := by
  intro a
  induction a with
  | nil => intro b; left; rfl
  | cons x xs ih =>
    intro b
    rcases b with _ | ⟨y, ys⟩
    · right; rfl
    · simp only [bytesLe]
      rcases Nat.lt_trichotomy x y with h | h | h
      · left; rw [if_pos h]
      · subst h
        rw [if_neg (by omega), if_neg (by omega),
          if_neg (by omega), if_neg (by omega)]
        exact ih ys
      · right; rw [if_pos h]

theorem bytesLe_trans : ∀ (a b c : List Nat),
    bytesLe a b = true → bytesLe b c = true → bytesLe a c = true := by
  intro a
  induction a with
  | nil => intro b c _ _; rfl
  | cons x xs ih =>
    intro b c hab hbc
    rcases b with _ | ⟨y, ys⟩
    · exact absurd hab (by simp [bytesLe])
    rcases c with _ | ⟨z, zs⟩
    · exact absurd hbc (by simp [bytesLe])
    simp only [bytesLe] at hab hbc ⊢
    split_ifs at hab hbc ⊢ <;>
      first
        | rfl
        | omega
        | exact ih ys zs hab hbc

theorem sortLe_congr (le le2 : α → α → Bool)
    (h : ∀ a b, le a b = le2 a b) (l : List α) :
    sortLe le l = sortLe le2 l := by
  have hins : ∀ (x : α) (m : List α), insertLe le x m = insertLe le2 x m := by
    intro x m
    induction m with
    | nil => rfl
    | cons y ys ih =>
      simp only [insertLe, h x y]
      by_cases h2 : le2 x y = true
      · rw [if_pos h2, if_pos h2]
      · rw [if_neg h2, if_neg h2, ih]
  induction l with
  | nil => rfl
  | cons x xs ih =>
    show insertLe le x (sortLe le xs) = insertLe le2 x (sortLe le2 xs)
    rw [ih, hins]

/-! ## Server selection

`allmydata/storage_client.py StorageFarmBroker.get_servers_for_psi` and
`allmydata/util/hashutil.py permute_server_hash` are not under src/.

Modelled from the spec (section 4.6) and pinned bit-exactly by the
repository's own test vectors (`test_client.py Basic.test_permute` and
`Basic.test_permute_with_preferred`): the broker sorts the known servers
by the key `(server not in preferred_peers, permute_server_hash)`, where
`permute_server_hash(peer_selection_index, seed)` is
SHA-1 of `peer_selection_index ++ seed`.

The specification instead claims the sort key is
`SHA-256(permutation_seed || si)`; `specPermutedServers` below follows
the spec's words so the two can be compared.
-/

/-- A storage-server announcement: the server's id (longname) and its
permutation seed. -/
structure SrvAnn where
  longname : List Nat
  seed : List Nat
deriving DecidableEq

/-- Modelled from the spec: `hashutil.permute_server_hash` is not under
src/; the permuted-hash key the implementation sorts by is SHA-1 of
`peer_selection_index ++ permutation_seed`, as pinned bit-exactly by the
`Basic.test_permute` vectors. -/
def permuteServerHash (psi seed : List Nat) : List Nat := sha1 (psi ++ seed)

/-- Comparison of two servers by the implementation's sort key
`(server not preferred, permute_server_hash)`. -/
def serverLe (preferred : List (List Nat)) (psi : List Nat)
    (a b : SrvAnn) : Bool :=
  combLe (fun s => preferred.contains s.longname)
    (fun a b => bytesLe (permuteServerHash psi a.seed)
      (permuteServerHash psi b.seed)) a b

/-- Modelled from the spec: `StorageFarmBroker.get_servers_for_psi` is
not under src/; the known servers, stably sorted by the key
`(server not preferred, permute_server_hash)`. -/
def getServersForPsi (preferred : List (List Nat))
    (servers : List SrvAnn) (psi : List Nat) : List SrvAnn :=
  sortLe (serverLe preferred psi) servers

/-- Modelled from the spec: the claimed permutation, sorting servers
ascending by `SHA-256(permutation_seed || si)`. -/
def specPermutedServers (servers : List SrvAnn) (si : List Nat) :
    List SrvAnn :=
  sortLe (fun a b => bytesLe (sha256 (a.seed ++ si)) (sha256 (b.seed ++ si)))
    servers

/-- The five-server fixture of `test_client.py Basic.test_permute`:
server id `k` has permutation seed `k`. -/
def testSrv (s : String) : SrvAnn :=
  { longname := strBytes s, seed := strBytes s }

/-- The broker fixture of `Basic.test_permute`. -/
def testServers : List SrvAnn :=
  [testSrv "0", testSrv "1", testSrv "2", testSrv "3", testSrv "4"]

/-- With no preferred servers, the sort key reduces to the permuted
hash alone. -/
theorem serverLe_nil (psi : List Nat) (a b : SrvAnn) :
    serverLe [] psi a b
      = bytesLe (permuteServerHash psi a.seed) (permuteServerHash psi b.seed) := by
  simp [serverLe, combLe]

/-- C2 counterexample.  On the five-server fixture of
`Basic.test_permute` with storage index `"one"`, the implementation's
selection list (pinned by the repository test to servers 3, 1, 0, 4, 2)
differs from the list obtained by sorting ascending by
`SHA-256(permutation_seed || si)` as the claim states. -/
theorem permute_hash_counterexample :
    getServersForPsi [] testServers (strBytes "one")
      = [testSrv "3", testSrv "1", testSrv "0", testSrv "4", testSrv "2"]
    ∧ specPermutedServers testServers (strBytes "one")
      = [testSrv "2", testSrv "1", testSrv "0", testSrv "4", testSrv "3"]
    ∧ specPermutedServers testServers (strBytes "one")
      ≠ getServersForPsi [] testServers (strBytes "one") := by
  refine ⟨by decide, by decide, ?_⟩
  intro h
  have h1 : specPermutedServers testServers (strBytes "one")
      = [testSrv "2", testSrv "1", testSrv "0", testSrv "4", testSrv "3"] := by
    decide
  have h2 : getServersForPsi [] testServers (strBytes "one")
      = [testSrv "3", testSrv "1", testSrv "0", testSrv "4", testSrv "2"] := by
    decide
  rw [h1, h2] at h
  exact absurd h (by decide)

/-- C2 (amended).  The server-selection list is the known servers stably
sorted ascending by `SHA-1(si ++ permutation_seed)` — the permutation is
a sorted-ascending-by-hash rearrangement of the server list, an empty
server set yields an empty list, and a configured preferred subset is
moved to the front of the list, both groups keeping their internal
permuted order; the fixture vectors of `Basic.test_permute` and
`Basic.test_permute_with_preferred` are reproduced exactly. -/
theorem get_servers_for_psi_permutation :
    (∀ (servers : List SrvAnn) (psi : List Nat),
      List.Perm (getServersForPsi [] servers psi) servers ∧
      (getServersForPsi [] servers psi).Pairwise
        (fun a b => bytesLe (permuteServerHash psi a.seed)
          (permuteServerHash psi b.seed) = true)) ∧
    (∀ (preferred : List (List Nat)) (psi : List Nat),
      getServersForPsi preferred [] psi = []) ∧
    (∀ (preferred : List (List Nat)) (servers : List SrvAnn) (psi : List Nat),
      getServersForPsi preferred servers psi
        = getServersForPsi []
            (servers.filter (fun s => preferred.contains s.longname)) psi
          ++ getServersForPsi []
            (servers.filter (fun s => !preferred.contains s.longname)) psi) ∧
    getServersForPsi [] testServers (strBytes "one")
      = [testSrv "3", testSrv "1", testSrv "0", testSrv "4", testSrv "2"] ∧
    getServersForPsi [] testServers (strBytes "two")
      = [testSrv "0", testSrv "4", testSrv "2", testSrv "1", testSrv "3"] ∧
    getServersForPsi [strBytes "1", strBytes "4"] testServers (strBytes "one")
      = [testSrv "1", testSrv "4", testSrv "3", testSrv "0", testSrv "2"] ∧
    getServersForPsi [strBytes "1", strBytes "4"] testServers (strBytes "two")
      = [testSrv "4", testSrv "1", testSrv "0", testSrv "2", testSrv "3"] := by
  refine ⟨?_, ?_, ?_, by decide, by decide, by decide, by decide⟩
  · intro servers psi
    constructor
    · exact sortLe_perm _ servers
    · have htot : ∀ a b, serverLe [] psi a b = true ∨ serverLe [] psi b a = true := by
        intro a b
        rw [serverLe_nil, serverLe_nil]
        exact bytesLe_total _ _
      have htrans : ∀ a b c, serverLe [] psi a b = true →
          serverLe [] psi b c = true → serverLe [] psi a c = true := by
        intro a b c hab hbc
        rw [serverLe_nil] at hab hbc ⊢
        exact bytesLe_trans _ _ _ hab hbc
      have hp := sortLe_pairwise (serverLe [] psi) htot htrans servers
      exact hp.imp (fun h => by rwa [serverLe_nil] at h)
  · intro preferred psi
    rfl
  · intro preferred servers psi
    have hdec := sortLe_pref_decomp
      (fun s => preferred.contains s.longname)
      (fun a b => bytesLe (permuteServerHash psi a.seed)
        (permuteServerHash psi b.seed)) servers
    have h1 : getServersForPsi preferred servers psi
        = sortLe (combLe (fun s => preferred.contains s.longname)
            (fun a b => bytesLe (permuteServerHash psi a.seed)
              (permuteServerHash psi b.seed))) servers := rfl
    rw [h1, hdec]
    have e : ∀ (l : List SrvAnn),
        sortLe (fun a b => bytesLe (permuteServerHash psi a.seed)
          (permuteServerHash psi b.seed)) l = getServersForPsi [] l psi :=
      fun l => sortLe_congr _ _ (fun a b => (serverLe_nil psi a b).symm) l
    rw [e, e]

/-! ## The immutable-share storage server

`allmydata/storage/server.py` and `allmydata/storage/immutable.py` are
not under src/.  Modelled from the spec (section 4.7) and the behaviour
pinned by `test_istorageserver.py`:

* `allocate_buckets(si, .., sharenums, allocated_size)` reports the
  requested share numbers whose buckets are already written and closed in
  `already_have` and offers writers for the rest in `allocated`
  (`test_allocate_buckets_repeat`, `test_written_shares_are_allocated`);
* a bucket accepts `write(offset, data)` at any offset while the share
  is not closed and the write stays within the allocated size
  (`test_written_shares_are_readable` writes shares in reverse order and
  with overlaps); where writes overlap, the earliest written value is
  retained (docstring of `test_written_shares_are_readable`);
* `close` succeeds on a fully-written share, after which the share is
  immutable; `get_buckets(si)` returns readers for exactly the closed
  shares.

The state for one storage index is an association list from share number
to bucket.
-/

/-- One immutable share being (or having been) uploaded: its allocated
size, the accepted `(offset, data)` writes in arrival order, and whether
it has been closed. -/
structure Bucket where
  size : Nat
  writes : List (Nat × List Nat)
  closed : Bool
deriving DecidableEq

/-- Does the write `w` cover absolute position `i`? -/
def wCovers (w : Nat × List Nat) (i : Nat) : Bool :=
  decide (w.1 ≤ i ∧ i < w.1 + w.2.length)

/-- The byte the write `w` puts at absolute position `i`. -/
def wVal (w : Nat × List Nat) (i : Nat) : Nat := w.2.getD (i - w.1) 0

/-- The stored byte at position `i`: the value of the earliest write
covering `i` (overlapping regions keep the earliest written value). -/
def byteAt (ws : List (Nat × List Nat)) (i : Nat) : Option Nat :=
  match ws.find? (fun w => wCovers w i) with
  | some w => some (wVal w i)
  | none => none

/-- Has every position of the share been written? -/
def bucketComplete (b : Bucket) : Bool :=
  (List.range b.size).all (fun i => (byteAt b.writes i).isSome)

/-- The contents of a share as stored. -/
def bucketBytes (b : Bucket) : List Nat :=
  (List.range b.size).map (fun i => (byteAt b.writes i).getD 0)

/-- Modelled from the spec: bucket `write(offset, data)` (storage
server, not under src/) is accepted while the share is not closed and
the write lies within the allocated size, as the repository tests pin. -/
def bucketWrite (b : Bucket) (off : Nat) (data : List Nat) : Option Bucket :=
  if b.closed then none
  else if off + data.length ≤ b.size then
    some { b with writes := b.writes ++ [(off, data)] }
  else none

/-- Modelled from the spec: bucket `close` (storage server, not under
src/) is accepted when the share is fully written and not yet closed
(spec 4.7 lists `incomplete` as its error). -/
def bucketClose (b : Bucket) : Option Bucket :=
  if b.closed then none
  else if bucketComplete b then some { b with closed := true }
  else none

/-- The per-storage-index server state: share number to bucket. -/
abbrev ShareMap : Type := List (Nat × Bucket)

/-- Look up a share number. -/
def lookupSh (st : ShareMap) (sh : Nat) : Option Bucket :=
  (List.find? (fun p => p.1 == sh) st).map (fun p => p.2)

/-- Is the share present and closed? -/
def isClosedSh (st : ShareMap) (sh : Nat) : Bool :=
  match lookupSh st sh with
  | some b => b.closed
  | none => false

/-- Create empty open buckets for the requested share numbers that have
no bucket yet. -/
def allocState (st : ShareMap) (sn : List Nat) (size : Nat) : ShareMap :=
  st ++ ((sn.filter (fun sh => (lookupSh st sh).isNone)).dedup).map
    (fun sh => (sh, Bucket.mk size [] false))

/-- Modelled from the spec: `allocate_buckets` (storage server, not
under src/) reports the requested share numbers with closed buckets in
`already_have`, offers writers for the rest in `allocated`, and creates
fresh open buckets for absent share numbers. -/
def allocateBuckets (st : ShareMap) (sn : List Nat) (size : Nat) :
    List Nat × List Nat × ShareMap :=
  (sn.filter (fun sh => isClosedSh st sh),
   sn.filter (fun sh => !isClosedSh st sh),
   allocState st sn size)

/-- Replace the bucket of a share number. -/
def replaceSh (st : ShareMap) (sh : Nat) (b : Bucket) : ShareMap :=
  List.map (fun p => if p.1 == sh then (sh, b) else p) st

/-- Apply a fallible bucket operation to one share. -/
def updateSh (st : ShareMap) (sh : Nat) (f : Bucket → Option Bucket) :
    Option ShareMap :=
  match lookupSh st sh with
  | none => none
  | some b =>
    match f b with
    | none => none
    | some b2 => some (replaceSh st sh b2)

/-- Server-side `write` on one share's bucket. -/
def serverWrite (st : ShareMap) (sh off : Nat) (data : List Nat) :
    Option ShareMap :=
  updateSh st sh (fun b => bucketWrite b off data)

/-- Server-side `close` on one share's bucket. -/
def serverClose (st : ShareMap) (sh : Nat) : Option ShareMap :=
  updateSh st sh bucketClose

/-- Modelled from the spec: `get_buckets` (storage server, not under
src/) returns readers (share contents) for exactly the closed shares. -/
def getBuckets (st : ShareMap) : List (Nat × List Nat) :=
  (List.filter (fun p => p.2.closed) st).map (fun p => (p.1, bucketBytes p.2))

/-- Bucket `read(offset, length)` on a closed share. -/
def bucketRead (b : Bucket) (off len : Nat) : List Nat :=
  ((bucketBytes b).drop off).take len

/-- A client-visible operation on one storage index. -/
inductive SrvOp where
  | alloc (sn : List Nat) (size : Nat)
  | write (sh off : Nat) (data : List Nat)
  | close (sh : Nat)
deriving DecidableEq

/-- Apply one operation; a rejected write or close leaves the state
unchanged. -/
def applyOp (st : ShareMap) : SrvOp → ShareMap
  | .alloc sn sz => (allocateBuckets st sn sz).2.2
  | .write sh off data => (serverWrite st sh off data).getD st
  | .close sh => (serverClose st sh).getD st

/-- The server state for one storage index after a sequence of
operations, starting from no shares. -/
def runOps (ops : List SrvOp) : ShareMap :=
  ops.foldl applyOp []

theorem find?_append_some {p : α → Bool} {l1 l2 : List α} {a : α}
    (h : l1.find? p = some a) : (l1 ++ l2).find? p = some a := by
  induction l1 with
  | nil => exact absurd h (by simp)
  | cons x xs ih =>
    rcases hx : p x with _ | _
    · rw [List.find?_cons_of_neg _ (by simp [hx])] at h
      rw [List.cons_append, List.find?_cons_of_neg _ (by simp [hx])]
      exact ih h
    · rw [List.find?_cons_of_pos _ hx] at h
      rw [List.cons_append, List.find?_cons_of_pos _ hx]
      exact h

theorem find?_append_none {p : α → Bool} {l1 : List α} (l2 : List α)
    (h : l1.find? p = none) : (l1 ++ l2).find? p = l2.find? p := by
  induction l1 with
  | nil => rfl
  | cons x xs ih =>
    rcases hx : p x with _ | _
    · rw [List.find?_cons_of_neg _ (by simp [hx])] at h
      rw [List.cons_append, List.find?_cons_of_neg _ (by simp [hx])]
      exact ih h
    · rw [List.find?_cons_of_pos _ hx] at h
      exact absurd h (by simp)

theorem find?_map_key (l : List Nat) (sh : Nat) (mk : Nat → Bucket) :
    (l.map (fun x => (x, mk x))).find? (fun p => p.1 == sh)
      = if sh ∈ l then some (sh, mk sh) else none := by
  induction l with
  | nil => rfl
  | cons x xs ih =>
    by_cases hx : x = sh
    · subst hx
      rw [List.map_cons, List.find?_cons_of_pos _ (by simp), if_pos (by simp)]
    · rw [List.map_cons, List.find?_cons_of_neg _ (by simp [hx]), ih]
      by_cases hmem : sh ∈ xs
      · rw [if_pos hmem, if_pos (by simp [hmem])]
      · rw [if_neg hmem, if_neg (by
          intro hc
          rcases List.mem_cons.mp hc with h | h
          · exact hx h.symm
          · exact hmem h)]

theorem lookupSh_allocState (st : ShareMap) (sn : List Nat) (size sh : Nat) :
    lookupSh (allocState st sn size) sh
      = match lookupSh st sh with
        | some b => some b
        | none =>
          if sh ∈ sn then some (Bucket.mk size [] false) else none := by
  rcases hst : lookupSh st sh with _ | b
  · rw [lookupSh] at hst ⊢
    rcases hf : List.find? (fun p => p.1 == sh) st with _ | p
    swap
    · rw [hf] at hst; exact absurd hst (by simp)
    rw [allocState, find?_append_none _ hf, find?_map_key]
    by_cases hmem : sh ∈ (sn.filter (fun x => (lookupSh st x).isNone)).dedup
    · have hsn : sh ∈ sn := List.mem_of_mem_filter (List.mem_dedup.mp hmem)
      rw [if_pos hmem, if_pos hsn]
      rfl
    · have hsn : sh ∉ sn := by
        intro hsn
        exact hmem (List.mem_dedup.mpr (List.mem_filter.mpr
          ⟨hsn, by rw [lookupSh, hf]; rfl⟩))
      rw [if_neg hmem, if_neg hsn]
      rfl
  · rw [lookupSh] at hst ⊢
    rcases hf : List.find? (fun p => p.1 == sh) st with _ | p
    · rw [hf] at hst; exact absurd hst (by simp)
    rw [hf] at hst
    rw [allocState, find?_append_some hf, hst]

theorem isClosedSh_allocState (st : ShareMap) (sn : List Nat) (size sh : Nat) :
    isClosedSh (allocState st sn size) sh = isClosedSh st sh := by
  rw [isClosedSh, isClosedSh, lookupSh_allocState]
  rcases lookupSh st sh with _ | b
  · simp only []
    by_cases hmem : sh ∈ sn
    · rw [if_pos hmem]
    · rw [if_neg hmem]
  · rfl

theorem lookupSh_replaceSh_self {st : ShareMap} {sh : Nat} {b0 : Bucket}
    (h : lookupSh st sh = some b0) (b : Bucket) :
    lookupSh (replaceSh st sh b) sh = some b := by
  induction st with
  | nil => exact absurd h (by simp [lookupSh])
  | cons p ps ih =>
    by_cases hp : p.1 = sh
    · rw [replaceSh, List.map_cons, if_pos (by simp [hp])]
      rw [lookupSh, List.find?_cons_of_pos _ (by simp)]
      rfl
    · rw [lookupSh, List.find?_cons_of_neg _ (by simp [hp])] at h
      rw [replaceSh, List.map_cons, if_neg (by simp [hp])]
      rw [lookupSh, List.find?_cons_of_neg _ (by simp [hp])]
      exact ih h

theorem lookupSh_replaceSh_other (st : ShareMap) {sh sh2 : Nat}
    (hne : sh2 ≠ sh) (b : Bucket) :
    lookupSh (replaceSh st sh b) sh2 = lookupSh st sh2 := by
  induction st with
  | nil => rfl
  | cons p ps ih =>
    by_cases hp : p.1 = sh
    · rw [replaceSh, List.map_cons, if_pos (by simp [hp])]
      rw [lookupSh, List.find?_cons_of_neg _ (by simp [Ne.symm hne])]
      rw [lookupSh, List.find?_cons_of_neg _ (by simp [hp, Ne.symm hne])]
      exact ih
    · rw [replaceSh, List.map_cons, if_neg (by simp [hp])]
      by_cases hp2 : p.1 = sh2
      · rw [lookupSh, List.find?_cons_of_pos _ (by simp [hp2])]
        rw [lookupSh, List.find?_cons_of_pos _ (by simp [hp2])]
      · rw [lookupSh, List.find?_cons_of_neg _ (by simp [hp2])]
        rw [lookupSh, List.find?_cons_of_neg _ (by simp [hp2])]
        exact ih

theorem updateSh_inv {st : ShareMap} {sh : Nat} {f : Bucket → Option Bucket}
    {st2 : ShareMap} (h : updateSh st sh f = some st2) :
    ∃ b b2, lookupSh st sh = some b ∧ f b = some b2
      ∧ st2 = replaceSh st sh b2 := by
  rw [updateSh] at h
  rcases hl : lookupSh st sh with _ | b
  · rw [hl] at h; exact absurd h (by simp)
  rw [hl] at h
  have h2 : (match f b with
      | none => none
      | some b2 => some (replaceSh st sh b2)) = some st2 := h
  rcases hf : f b with _ | b2
  · rw [hf] at h2; exact absurd h2 (by simp)
  rw [hf] at h2
  simp only [Option.some.injEq] at h2
  exact ⟨b, b2, rfl, hf, h2.symm⟩

theorem keys_replaceSh (st : ShareMap) (sh : Nat) (b : Bucket) :
    (replaceSh st sh b).map Prod.fst = st.map Prod.fst := by
  induction st with
  | nil => rfl
  | cons p ps ih =>
    rw [replaceSh, List.map_cons]
    by_cases hp : p.1 = sh
    · rw [if_pos (by simp [hp]), List.map_cons, List.map_cons]
      simp only [replaceSh] at ih
      rw [ih, hp]
    · rw [if_neg (by simp [hp]), List.map_cons, List.map_cons]
      simp only [replaceSh] at ih
      rw [ih]

/-- The server-state invariant: share numbers are unique, and every
closed bucket is fully written. -/
def SrvInv (st : ShareMap) : Prop :=
  (st.map Prod.fst).Nodup ∧
  ∀ sh b, lookupSh st sh = some b → b.closed = true → bucketComplete b = true

theorem srvInv_nil : SrvInv [] :=
  ⟨List.nodup_nil, fun _ _ h => absurd h (by simp [lookupSh])⟩

theorem lookupSh_isSome_of_mem_keys {st : ShareMap} {sh : Nat}
    (h : sh ∈ st.map Prod.fst) : (lookupSh st sh).isSome = true := by
  induction st with
  | nil => simp at h
  | cons p ps ih =>
    rw [List.map_cons] at h
    by_cases hp : p.1 = sh
    · rw [lookupSh, List.find?_cons_of_pos _ (by simp [hp])]
      rfl
    · rcases List.mem_cons.mp h with h1 | h1
      · exact absurd h1.symm hp
      · rw [lookupSh, List.find?_cons_of_neg _ (by simp [hp])]
        exact ih h1

theorem map_fst_map_key (f : Nat → Bucket) (l : List Nat) :
    (l.map (fun x => (x, f x))).map Prod.fst = l := by
  induction l with
  | nil => rfl
  | cons x xs ih => simp only [List.map_cons, ih]

theorem srvInv_allocState {st : ShareMap} (h : SrvInv st)
    (sn : List Nat) (size : Nat) : SrvInv (allocState st sn size) := by
  obtain ⟨hkeys, hclosed⟩ := h
  constructor
  · rw [allocState, List.map_append, map_fst_map_key, List.nodup_append]
    refine ⟨hkeys, List.nodup_dedup _, ?_⟩
    intro a ha hmem2
    have h1 : (lookupSh st a).isSome = true := lookupSh_isSome_of_mem_keys ha
    have h2 := (List.mem_filter.mp (List.mem_dedup.mp hmem2)).2
    rcases hx : lookupSh st a with _ | b
    · rw [hx] at h1
      exact absurd h1 (by simp)
    · rw [hx] at h2
      exact absurd h2 (by simp)
  · intro sh b hb hc
    rw [lookupSh_allocState] at hb
    rcases hst : lookupSh st sh with _ | b0
    · rw [hst] at hb
      simp only [] at hb
      by_cases hmem : sh ∈ sn
      · rw [if_pos hmem] at hb
        injection hb with hb
        subst hb
        exact absurd hc (by simp)
      · rw [if_neg hmem] at hb
        exact absurd hb (by simp)
    · rw [hst] at hb
      injection hb with hb
      exact hclosed sh b (hb ▸ hst) hc

theorem bucketWrite_inv {b : Bucket} {off : Nat} {data : List Nat} {b2 : Bucket}
    (h : bucketWrite b off data = some b2) :
    b.closed = false ∧ off + data.length ≤ b.size
      ∧ b2 = { b with writes := b.writes ++ [(off, data)] } := by
  rw [bucketWrite] at h
  by_cases hc : b.closed = true
  · rw [if_pos hc] at h
    exact absurd h (by simp)
  rw [if_neg hc] at h
  by_cases hsz : off + data.length ≤ b.size
  · rw [if_pos hsz] at h
    injection h with h
    exact ⟨by simpa using hc, hsz, h.symm⟩
  · rw [if_neg hsz] at h
    exact absurd h (by simp)

theorem bucketClose_inv {b b2 : Bucket} (h : bucketClose b = some b2) :
    b.closed = false ∧ bucketComplete b = true
      ∧ b2 = { b with closed := true } := by
  rw [bucketClose] at h
  by_cases hc : b.closed = true
  · rw [if_pos hc] at h
    exact absurd h (by simp)
  rw [if_neg hc] at h
  by_cases hcm : bucketComplete b = true
  · rw [if_pos hcm] at h
    injection h with h
    exact ⟨by simpa using hc, hcm, h.symm⟩
  · rw [if_neg hcm] at h
    exact absurd h (by simp)

theorem srvInv_replaceSh {st : ShareMap} (hinv : SrvInv st) {sh : Nat}
    {b b2 : Bucket} (hb : lookupSh st sh = some b)
    (h2 : b2.closed = true → bucketComplete b2 = true) :
    SrvInv (replaceSh st sh b2) := by
  obtain ⟨hkeys, hclosed⟩ := hinv
  constructor
  · rw [keys_replaceSh]
    exact hkeys
  · intro sh2 b3 hl hc
    by_cases hsh : sh2 = sh
    · subst hsh
      rw [lookupSh_replaceSh_self hb] at hl
      injection hl with hl
      subst hl
      exact h2 hc
    · rw [lookupSh_replaceSh_other st hsh] at hl
      exact hclosed sh2 b3 hl hc

theorem srvInv_applyOp {st : ShareMap} (hinv : SrvInv st) (op : SrvOp) :
    SrvInv (applyOp st op) := by
  rcases op with ⟨sn, sz⟩ | ⟨sh, off, data⟩ | sh
  · exact srvInv_allocState hinv sn sz
  · have he : applyOp st (SrvOp.write sh off data)
        = (serverWrite st sh off data).getD st := rfl
    rcases hw : serverWrite st sh off data with _ | st2
    · rw [he, hw]
      exact hinv
    · rw [he, hw]
      obtain ⟨b, b2, hb, hf, hst2⟩ := updateSh_inv hw
      obtain ⟨hcl, _, hb2⟩ := bucketWrite_inv hf
      have : (Option.getD (some st2) st) = st2 := rfl
      rw [this, hst2]
      refine srvInv_replaceSh hinv hb ?_
      rw [hb2]
      intro hc
      have hc2 : b.closed = true := hc
      rw [hcl] at hc2
      exact absurd hc2 (by simp)
  · have he : applyOp st (SrvOp.close sh)
        = (serverClose st sh).getD st := rfl
    rcases hw : serverClose st sh with _ | st2
    · rw [he, hw]
      exact hinv
    · rw [he, hw]
      obtain ⟨b, b2, hb, hf, hst2⟩ := updateSh_inv hw
      obtain ⟨hcl, hcm, hb2⟩ := bucketClose_inv hf
      have : (Option.getD (some st2) st) = st2 := rfl
      rw [this, hst2]
      refine srvInv_replaceSh hinv hb ?_
      intro _
      rw [hb2]
      exact hcm

theorem srvInv_runOps (ops : List SrvOp) : SrvInv (runOps ops) := by
  have aux : ∀ (l : List SrvOp) (st : ShareMap), SrvInv st →
      SrvInv (l.foldl applyOp st) := by
    intro l
    induction l with
    | nil => intro st h; exact h
    | cons op rest ih =>
      intro st h
      exact ih (applyOp st op) (srvInv_applyOp h op)
  exact aux ops [] srvInv_nil

theorem lookupSh_of_mem {st : ShareMap} (hn : (st.map Prod.fst).Nodup)
    {sh : Nat} {b : Bucket} (h : (sh, b) ∈ st) : lookupSh st sh = some b := by
  induction st with
  | nil => simp at h
  | cons p ps ih =>
    rw [List.map_cons] at hn
    rcases List.nodup_cons.mp hn with ⟨hp1, hps⟩
    rcases List.mem_cons.mp h with h1 | h1
    · subst h1
      rw [lookupSh, List.find?_cons_of_pos _ (by simp)]
      rfl
    · have hsh : sh ∈ ps.map Prod.fst :=
        List.mem_map.mpr ⟨(sh, b), h1, rfl⟩
      have hne : p.1 ≠ sh := fun hcontra => hp1 (hcontra ▸ hsh)
      rw [lookupSh, List.find?_cons_of_neg _ (by simp [hne])]
      exact ih hps h1

theorem mem_getBuckets_iff {st : ShareMap} (hinv : SrvInv st)
    {sh : Nat} {bytes : List Nat} :
    (sh, bytes) ∈ getBuckets st
      ↔ ∃ b, lookupSh st sh = some b ∧ b.closed = true
          ∧ bytes = bucketBytes b := by
  constructor
  · intro h
    rw [getBuckets] at h
    obtain ⟨p, hp, hpe⟩ := List.mem_map.mp h
    have hpmem : p ∈ st := List.mem_of_mem_filter hp
    have hpc : p.2.closed = true := by
      have := List.of_mem_filter hp
      simpa using this
    injection hpe with he1 he2
    refine ⟨p.2, ?_, hpc, he2.symm⟩
    have : (sh, p.2) = p := by
      rcases p with ⟨p1, p2⟩
      simp at he1
      simp [he1]
    rw [← this] at hpmem
    exact lookupSh_of_mem hinv.1 hpmem
  · rintro ⟨b, hb, hc, rfl⟩
    rw [lookupSh] at hb
    rcases hf : List.find? (fun p => p.1 == sh) st with _ | p
    · rw [hf] at hb; exact absurd hb (by simp)
    rw [hf] at hb
    injection hb with hb
    have hb2 : p.2 = b := hb
    have hpmem : p ∈ st := List.mem_of_find?_eq_some hf
    have hpk := List.find?_some hf
    have hp1 : p.1 = sh := by simpa using hpk
    rw [getBuckets]
    apply List.mem_map.mpr
    refine ⟨p, List.mem_filter.mpr ⟨hpmem, by simp [hb2, hc]⟩, ?_⟩
    rw [hp1, hb2]

/-- C1.  On every reachable server state, a repeated `allocate_buckets`
reports in `already_have` exactly the requested share numbers whose
buckets were fully written and closed; never-written and
partially-written share numbers are absent from `already_have` and are
offered again in `allocated`; and repeating an identical
`allocate_buckets` call with no intervening writes returns the same
`already_have` set and the same `allocated` share numbers. -/
theorem allocate_buckets_already_have (ops : List SrvOp) (sn : List Nat)
    (sz : Nat) :
    (∀ sh, sh ∈ (allocateBuckets (runOps ops) sn sz).1
      ↔ sh ∈ sn ∧ ∃ b, lookupSh (runOps ops) sh = some b
          ∧ b.closed = true ∧ bucketComplete b = true) ∧
    (∀ sh, sh ∈ (allocateBuckets (runOps ops) sn sz).2.1
      ↔ sh ∈ sn ∧ isClosedSh (runOps ops) sh = false) ∧
    (allocateBuckets (allocateBuckets (runOps ops) sn sz).2.2 sn sz).1
      = (allocateBuckets (runOps ops) sn sz).1 ∧
    (allocateBuckets (allocateBuckets (runOps ops) sn sz).2.2 sn sz).2.1
      = (allocateBuckets (runOps ops) sn sz).2.1 := by
  have hinv := srvInv_runOps ops
  refine ⟨?_, ?_, ?_, ?_⟩
  · intro sh
    rw [allocateBuckets]
    simp only [List.mem_filter]
    constructor
    · rintro ⟨hsn, hcl⟩
      rw [isClosedSh] at hcl
      rcases hb : lookupSh (runOps ops) sh with _ | b
      · rw [hb] at hcl; exact absurd hcl (by simp)
      · rw [hb] at hcl
        exact ⟨hsn, b, rfl, hcl, hinv.2 sh b hb hcl⟩
    · rintro ⟨hsn, b, hb, hc, _⟩
      refine ⟨hsn, ?_⟩
      rw [isClosedSh, hb]
      exact hc
  · intro sh
    rw [allocateBuckets]
    simp only [List.mem_filter, Bool.not_eq_true']
  · rw [allocateBuckets, allocateBuckets]
    apply List.filter_congr
    intro sh _
    rw [isClosedSh_allocState]
  · rw [allocateBuckets, allocateBuckets]
    apply List.filter_congr
    intro sh _
    rw [isClosedSh_allocState]

/-- C9.  `get_buckets` returns readers for exactly the closed share
numbers: a share appears iff its bucket is closed (and hence fully
written, by the server invariant); share numbers never allocated, never
written, or only partially written (hence not closed) do not appear. -/
theorem get_buckets_exactly_closed (ops : List SrvOp) (sh : Nat) :
    (∀ bytes, (sh, bytes) ∈ getBuckets (runOps ops)
      ↔ ∃ b, lookupSh (runOps ops) sh = some b ∧ b.closed = true
          ∧ bytes = bucketBytes b) ∧
    (isClosedSh (runOps ops) sh = false →
      ∀ bytes, (sh, bytes) ∉ getBuckets (runOps ops)) ∧
    (∀ b, lookupSh (runOps ops) sh = some b → b.closed = true →
      bucketComplete b = true) := by
  have hinv := srvInv_runOps ops
  refine ⟨fun bytes => mem_getBuckets_iff hinv, ?_, fun b hb hc => hinv.2 sh b hb hc⟩
  intro hcl bytes hmem
  obtain ⟨b, hb, hc, _⟩ := (mem_getBuckets_iff hinv).mp hmem
  rw [isClosedSh, hb] at hcl
  have hcl2 : b.closed = false := hcl
  rw [hc] at hcl2
  exact absurd hcl2 (by simp)

/-- The end of the written data: the largest offset-plus-length over the
accepted writes (0 for a fresh bucket). -/
def bucketEnd (b : Bucket) : Nat :=
  b.writes.foldl (fun e w => max e (w.1 + w.2.length)) 0

/-- The `test_written_shares_are_allocated` scenario (sizes scaled to 16
bytes): shares 1 and 2 fully written and closed, share 0 written only
partially, shares 3 and 4 never written. -/
def wOpsAllocated : List SrvOp :=
  [SrvOp.alloc [0, 1, 2, 3, 4] 16,
   SrvOp.write 1 0 (List.replicate 16 49), SrvOp.close 1,
   SrvOp.write 2 0 (List.replicate 8 49),
   SrvOp.write 2 8 (List.replicate 8 50), SrvOp.close 2,
   SrvOp.write 0 0 (List.replicate 8 49)]

/-- The `test_written_shares_are_readable` scenario (sizes scaled to 4
bytes): share 1 written in order, share 2 written in reverse order,
share 3 written with an overlap. -/
def wOpsReadable : List SrvOp :=
  [SrvOp.alloc [1, 2, 3] 4,
   SrvOp.write 1 0 [49, 49], SrvOp.write 1 2 [50, 50], SrvOp.close 1,
   SrvOp.write 2 2 [52, 52], SrvOp.write 2 0 [51, 51], SrvOp.close 2,
   SrvOp.write 3 0 [53], SrvOp.write 3 0 [53, 53],
   SrvOp.write 3 2 [54, 54], SrvOp.close 3]

/-- The model reproduces `test_written_shares_are_allocated`: the repeat
allocation reports exactly shares 1 and 2 in `already_have` and offers
the others again. -/
theorem already_have_test_scenario :
    (allocateBuckets (runOps wOpsAllocated) [0, 1, 2, 3, 4] 16).1 = [1, 2]
    ∧ (allocateBuckets (runOps wOpsAllocated) [0, 1, 2, 3, 4] 16).2.1
      = [0, 3, 4] := by
  decide

/-- The model reproduces `test_written_shares_are_readable`: exactly the
closed shares 1, 2, 3 are readable, reverse-order and overlapping writes
included, with the earliest write retained in the overlap. -/
theorem get_buckets_test_scenario :
    getBuckets (runOps wOpsReadable)
      = [(1, [49, 49, 50, 50]), (2, [51, 51, 52, 52]),
         (3, [53, 53, 54, 54])] := by
  decide

/-- Witness for C1 on the `test_written_shares_are_allocated`
scenario. -/
theorem allocate_buckets_already_have_witness :
    (1 ∈ (allocateBuckets (runOps wOpsAllocated) [0, 1, 2, 3, 4] 16).1
      ↔ 1 ∈ [0, 1, 2, 3, 4]
        ∧ ∃ b, lookupSh (runOps wOpsAllocated) 1 = some b
            ∧ b.closed = true ∧ bucketComplete b = true) ∧
    (0 ∈ (allocateBuckets (runOps wOpsAllocated) [0, 1, 2, 3, 4] 16).2.1
      ↔ 0 ∈ [0, 1, 2, 3, 4]
        ∧ isClosedSh (runOps wOpsAllocated) 0 = false) ∧
    (allocateBuckets
        (allocateBuckets (runOps wOpsAllocated) [0, 1, 2, 3, 4] 16).2.2
        [0, 1, 2, 3, 4] 16).1
      = (allocateBuckets (runOps wOpsAllocated) [0, 1, 2, 3, 4] 16).1 :=
  ⟨(allocate_buckets_already_have wOpsAllocated [0, 1, 2, 3, 4] 16).1 1,
   (allocate_buckets_already_have wOpsAllocated [0, 1, 2, 3, 4] 16).2.1 0,
   (allocate_buckets_already_have wOpsAllocated [0, 1, 2, 3, 4] 16).2.2.1⟩

/-- Witness for C9 on the `test_written_shares_are_readable` scenario:
the partially-written share 0 of the allocation scenario does not appear
in `get_buckets`. -/
theorem get_buckets_exactly_closed_witness :
    ((1, [49, 49, 50, 50]) ∈ getBuckets (runOps wOpsReadable)
      ↔ ∃ b, lookupSh (runOps wOpsReadable) 1 = some b
          ∧ b.closed = true ∧ [49, 49, 50, 50] = bucketBytes b) ∧
    ((0, List.replicate 8 49) ∉ getBuckets (runOps wOpsAllocated)) :=
  ⟨(get_buckets_exactly_closed wOpsReadable 1).1 [49, 49, 50, 50],
   (get_buckets_exactly_closed wOpsAllocated 0).2.1 (by decide)
     (List.replicate 8 49)⟩

/-- C3 counterexample.  On a freshly allocated 1024-byte bucket the
current end of the written data is 0, yet a write at offset 512 — not
the current end — is accepted (the repository test
`test_written_shares_are_readable` writes share 2 in reverse order and
expects success). -/
theorem append_only_write_counterexample :
    lookupSh (runOps [SrvOp.alloc [2] 1024]) 2
      = some (Bucket.mk 1024 [] false)
    ∧ bucketEnd (Bucket.mk 1024 [] false) = 0
    ∧ (512 : Nat) ≠ 0
    ∧ (serverWrite (runOps [SrvOp.alloc [2] 1024]) 2 512
        (List.replicate 512 52)).isSome = true := by
  decide

/-- C3 (amended).  Until a share is closed, a write is accepted at any
offset whose extent fits in the allocated size — regardless of the
current end of the written data; a write to a closed share, or one
extending past the allocated size, is rejected; an accepted write only
appends to the recorded writes and never closes the share. -/
theorem bucket_write_acceptance (b : Bucket) (off : Nat) (data : List Nat) :
    ((bucketWrite b off data).isSome
      = (!b.closed && decide (off + data.length ≤ b.size))) ∧
    (∀ b2, bucketWrite b off data = some b2 →
      b2.writes = b.writes ++ [(off, data)] ∧ b2.closed = b.closed
        ∧ b2.size = b.size) ∧
    (b.closed = true → bucketWrite b off data = none) := by
  refine ⟨?_, ?_, ?_⟩
  · rw [bucketWrite]
    by_cases hc : b.closed = true
    · rw [if_pos hc, hc]
      rfl
    · rw [if_neg hc]
      have hc2 : b.closed = false := by simpa using hc
      by_cases hsz : off + data.length ≤ b.size
      · rw [if_pos hsz, hc2]
        simp [hsz]
      · rw [if_neg hsz, hc2]
        simp [hsz]
  · intro b2 h
    obtain ⟨hcl, hsz, hb2⟩ := bucketWrite_inv h
    rw [hb2]
    exact ⟨rfl, rfl, rfl⟩
  · intro hc
    rw [bucketWrite, if_pos hc]

/-- Witness for C3 (amended) at concrete buckets: an open 4-byte bucket
accepts a write at offset 2, and the same bucket closed rejects it. -/
theorem bucket_write_acceptance_witness :
    ((bucketWrite (Bucket.mk 4 [] false) 2 [53]).isSome
      = (!(Bucket.mk 4 [] false).closed
          && decide (2 + [53].length ≤ (Bucket.mk 4 [] false).size))) ∧
    ((Bucket.mk 4 [(2, [53])] false).writes
        = (Bucket.mk 4 [] false).writes ++ [(2, [53])]
      ∧ (Bucket.mk 4 [(2, [53])] false).closed
        = (Bucket.mk 4 [] false).closed
      ∧ (Bucket.mk 4 [(2, [53])] false).size = (Bucket.mk 4 [] false).size) ∧
    bucketWrite (Bucket.mk 4 [] true) 2 [53] = none :=
  ⟨(bucket_write_acceptance (Bucket.mk 4 [] false) 2 [53]).1,
   (bucket_write_acceptance (Bucket.mk 4 [] false) 2 [53]).2.1
     (Bucket.mk 4 [(2, [53])] false) (by decide),
   (bucket_write_acceptance (Bucket.mk 4 [] true) 2 [53]).2.2 rfl⟩

/-- Any two accepted writes agree on every position their extents share
(in particular, pairwise non-overlapping writes agree vacuously). -/
def writesAgree (ws : List (Nat × List Nat)) : Prop :=
  ∀ w1 ∈ ws, ∀ w2 ∈ ws, ∀ i, wCovers w1 i = true → wCovers w2 i = true →
    wVal w1 i = wVal w2 i

theorem byteAt_eq_of_agree {ws : List (Nat × List Nat)}
    (hagree : writesAgree ws) {w : Nat × List Nat} {i : Nat}
    (hw : w ∈ ws) (hc : wCovers w i = true) :
    byteAt ws i = some (wVal w i) := by
  rw [byteAt]
  rcases hf : ws.find? (fun w => wCovers w i) with _ | w2
  · have := List.find?_eq_none.mp hf w hw
    exact absurd hc (by simpa using this)
  · have hw2mem := List.mem_of_find?_eq_some hf
    have hw2c := List.find?_some hf
    show some (wVal w2 i) = some (wVal w i)
    rw [hagree w2 hw2mem w hw i hw2c hc]

theorem byteAt_perm {ws ws2 : List (Nat × List Nat)}
    (hperm : List.Perm ws ws2) (hagree : writesAgree ws) (i : Nat) :
    byteAt ws i = byteAt ws2 i := by
  have hagree2 : writesAgree ws2 := fun w1 h1 w2 h2 j hc1 hc2 =>
    hagree w1 (hperm.symm.subset h1) w2 (hperm.symm.subset h2) j hc1 hc2
  rcases hf : ws.find? (fun w => wCovers w i) with _ | w
  · have hnone : ∀ w ∈ ws, wCovers w i = false := fun w hw => by
      have := List.find?_eq_none.mp hf w hw
      simpa using this
    have hnone2 : ws2.find? (fun w => wCovers w i) = none :=
      List.find?_eq_none.mpr fun w hw => by
        simp [hnone w (hperm.symm.subset hw)]
    rw [byteAt, byteAt, hf, hnone2]
  · have hwmem := List.mem_of_find?_eq_some hf
    have hwc := List.find?_some hf
    rw [byteAt_eq_of_agree hagree hwmem hwc,
      byteAt_eq_of_agree hagree2 (hperm.subset hwmem) hwc]

/-- C8 counterexample.  Two writes of different bytes at the same offset,
issued in the two possible orders, give the same set of `(offset, data)`
pairs but different stored bytes — the read does not depend only on the
set of writes when overlapping writes conflict (the earliest write wins,
so the order matters). -/
theorem write_order_counterexample :
    lookupSh (runOps [SrvOp.alloc [0] 1, SrvOp.write 0 0 [49],
        SrvOp.write 0 0 [50], SrvOp.close 0]) 0
      = some (Bucket.mk 1 [(0, [49]), (0, [50])] true)
    ∧ lookupSh (runOps [SrvOp.alloc [0] 1, SrvOp.write 0 0 [50],
        SrvOp.write 0 0 [49], SrvOp.close 0]) 0
      = some (Bucket.mk 1 [(0, [50]), (0, [49])] true)
    ∧ List.Perm [((0 : Nat), [(49 : Nat)]), (0, [50])]
        [((0 : Nat), [(50 : Nat)]), (0, [49])]
    ∧ bucketBytes (Bucket.mk 1 [(0, [49]), (0, [50])] true)
      ≠ bucketBytes (Bucket.mk 1 [(0, [50]), (0, [49])] true) := by
  refine ⟨by decide, by decide, ?_, by decide⟩
  exact List.Perm.swap _ _ _

/-- C8 (amended).  For a share written by any finite sequence of writes:
if every two writes agree wherever their extents overlap (in particular
whenever the writes are non-overlapping), the stored bytes depend only
on the set of `(offset, data)` pairs and not on the order in which the
writes were issued; and in any overlapping region the bytes of the
earliest write are retained whatever is written later. -/
theorem written_share_order_and_overlap :
    (∀ (sz : Nat) (c c2 : Bool) (ws ws2 : List (Nat × List Nat)),
      List.Perm ws ws2 → writesAgree ws →
      bucketBytes (Bucket.mk sz ws c) = bucketBytes (Bucket.mk sz ws2 c2)) ∧
    (∀ (ws1 : List (Nat × List Nat)) (w : Nat × List Nat)
      (ws2 : List (Nat × List Nat)) (i : Nat),
      wCovers w i = true → (∀ w0 ∈ ws1, wCovers w0 i = false) →
      byteAt (ws1 ++ w :: ws2) i = some (wVal w i)) := by
  constructor
  · intro sz c c2 ws ws2 hperm hagree
    rw [bucketBytes, bucketBytes]
    apply List.map_congr_left
    intro i _
    rw [byteAt_perm hperm hagree i]
  · intro ws1 w ws2 i hc hnone
    rw [byteAt]
    have h1 : ws1.find? (fun w => wCovers w i) = none :=
      List.find?_eq_none.mpr fun w0 hw0 => by simp [hnone w0 hw0]
    have h2 : (w :: ws2).find? (fun w => wCovers w i) = some w :=
      List.find?_cons_of_pos _ hc
    rw [find?_append_none _ h1, h2]

/-- Witness for C8 (amended): two disjoint writes issued in either order
store the same bytes, and a write at offset 0 keeps its byte whatever is
written over it later. -/
theorem written_share_order_and_overlap_witness :
    bucketBytes (Bucket.mk 2 [(0, [49]), (1, [50])] true)
      = bucketBytes (Bucket.mk 2 [(1, [50]), (0, [49])] true)
    ∧ byteAt ([] ++ (0, [49]) :: [(0, [50])]) 0 = some (wVal (0, [49]) 0) := by
  have hagree : writesAgree [(0, [49]), (1, [50])] := by
    intro w1 h1 w2 h2 i hc1 hc2
    rcases List.mem_cons.mp h1 with rfl | h1 <;>
      rcases List.mem_cons.mp h2 with rfl | h2
    · rfl
    · rw [List.mem_singleton] at h2
      subst h2
      simp only [wCovers, decide_eq_true_eq] at hc1 hc2
      simp at hc1 hc2
      omega
    · rw [List.mem_singleton] at h1
      subst h1
      simp only [wCovers, decide_eq_true_eq] at hc1 hc2
      simp at hc1 hc2
      omega
    · rw [List.mem_singleton] at h1
      rw [List.mem_singleton] at h2
      subst h1
      subst h2
      rfl
  exact ⟨written_share_order_and_overlap.1 2 true true _ _
      (List.Perm.swap _ _ _) hagree,
    written_share_order_and_overlap.2 [] (0, [49]) [(0, [50])] 0
      (by decide) (fun w0 hw0 => absurd hw0 (List.not_mem_nil w0))⟩

/-! ## The CPU thread pool

`allmydata/util/cputhreadpool.py` (under src/) creates

    _CPU_THREAD_POOL = ThreadPool(minthreads=0, maxthreads=os.cpu_count(),
                                  name="TahoeCPU")

and `defer_to_thread` submits work to it.  `os.cpu_count()` is the
parameter `cpuCount` below.  Twisted's `ThreadPool` is an external
collaborator; its documented worker management is: `start()` starts
`minthreads` workers, a submission starts one more worker when no worker
is idle and the count is below `maxthreads`, and workers are never
started beyond `maxthreads`.
-/

/-- The `minthreads` / `maxthreads` configuration of a thread pool. -/
structure PoolConfig where
  minthreads : Nat
  maxthreads : Nat
deriving DecidableEq

/-- The pool `cputhreadpool.py` creates: `minthreads=0`,
`maxthreads=os.cpu_count()`. -/
def cpuThreadPool (cpuCount : Nat) : PoolConfig :=
  { minthreads := 0, maxthreads := cpuCount }

/-- A pool's dynamic state: started worker threads and outstanding
submitted tasks. -/
structure PoolState where
  workers : Nat
  pending : Nat
deriving DecidableEq

/-- A load event: a task is submitted, or a running task finishes. -/
inductive PoolEvent where
  | submit
  | finish
deriving DecidableEq

/-- One step of the pool's worker management. -/
def poolStep (cfg : PoolConfig) (s : PoolState) : PoolEvent → PoolState
  | .submit =>
    if s.pending < s.workers then { s with pending := s.pending + 1 }
    else if s.workers < cfg.maxthreads then
      { workers := s.workers + 1, pending := s.pending + 1 }
    else { s with pending := s.pending + 1 }
  | .finish => { s with pending := s.pending - 1 }

/-- The state right after `start()`: `minthreads` workers, no work. -/
def poolStart (cfg : PoolConfig) : PoolState :=
  { workers := cfg.minthreads, pending := 0 }

/-- The pool state after a sequence of load events. -/
def poolRun (cfg : PoolConfig) (evs : List PoolEvent) : PoolState :=
  evs.foldl (poolStep cfg) (poolStart cfg)

/-- `defer_to_thread`: submit `f x` to the pool; the returned Deferred
fires with the function's result (modelled by returning the value). -/
def deferToThread (cfg : PoolConfig) (s : PoolState) (f : α → β) (x : α) :
    β × PoolState :=
  (f x, poolStep cfg s PoolEvent.submit)

/-- C7 counterexample.  With `os.cpu_count() = 4` the pool starts with 0
threads (`minthreads=0`), and has exactly 1 after the first submission:
the thread count is not the constant `os.cpu_count()` and varies with
load. -/
theorem cpu_pool_constant_count_counterexample :
    (poolRun (cpuThreadPool 4) []).workers = 0
    ∧ (poolRun (cpuThreadPool 4) [PoolEvent.submit]).workers = 1
    ∧ (0 : Nat) ≠ 4 ∧ (1 : Nat) ≠ 4 := by
  decide

/-- C7 (amended).  The CPU pool used by `defer_to_thread` is configured
with `minthreads = 0` and `maxthreads = os.cpu_count()`: the thread
count starts at zero, grows on demand, and never exceeds
`os.cpu_count()` under any sequence of load events; `defer_to_thread`
yields the submitted function's result. -/
theorem cpu_pool_bounded_by_cpu_count :
    (∀ n, (cpuThreadPool n).minthreads = 0
      ∧ (cpuThreadPool n).maxthreads = n) ∧
    (∀ (n : Nat) (evs : List PoolEvent),
      (poolRun (cpuThreadPool n) evs).workers ≤ n) ∧
    (∀ (cfg : PoolConfig) (s : PoolState) (f : Nat → Nat) (x : Nat),
      (deferToThread cfg s f x).1 = f x) := by
  refine ⟨fun n => ⟨rfl, rfl⟩, ?_, fun cfg s f x => rfl⟩
  intro n evs
  have hstep : ∀ (s : PoolState) (e : PoolEvent),
      s.workers ≤ n → (poolStep (cpuThreadPool n) s e).workers ≤ n := by
    intro s e hs
    rcases e with _ | _
    · rw [poolStep]
      by_cases h1 : s.pending < s.workers
      · rw [if_pos h1]
        exact hs
      · rw [if_neg h1]
        by_cases h2 : s.workers < (cpuThreadPool n).maxthreads
        · rw [if_pos h2]
          have : (cpuThreadPool n).maxthreads = n := rfl
          rw [this] at h2
          exact h2
        · rw [if_neg h2]
          exact hs
    · exact hs
  have aux : ∀ (l : List PoolEvent) (s : PoolState), s.workers ≤ n →
      (l.foldl (poolStep (cpuThreadPool n)) s).workers ≤ n := by
    intro l
    induction l with
    | nil => intro s h; exact h
    | cons e rest ih =>
      intro s h
      exact ih (poolStep (cpuThreadPool n) s e) (hstep s e h)
  exact aux evs (poolStart (cpuThreadPool n)) (by simp [poolStart, cpuThreadPool])

/-! ## The OpenStack container error reaction

`openstack_container.py` (under src/) lines 248–254:

    def _react_to_error(self, response_code):
        if response_code == UNAUTHORIZED:
            # Invalidate auth_info and retry.
            self._auth_client.invalidate()
            return True
        else:
            return CommonContainerMixin._react_to_error(self, response_code)

`AuthenticationClient.invalidate` (lines 199–201) clears the cached
`_auth_info` (and kicks off an asynchronous re-authentication);
`get_auth_info` returns the cached info when present and authenticates
otherwise.  `UNAUTHORIZED` is HTTP 401 (`twisted.web.http`).
`CommonContainerMixin._react_to_error` lives in `cloud_common.py`, which
is not under src/; it is kept abstract as the parameter `common`.
-/

/-- HTTP 401, `twisted.web.http.UNAUTHORIZED`. -/
def UNAUTHORIZED : Nat := 401

/-- The authentication info the client caches. -/
structure AuthInfo where
  authToken : List Nat
  publicStorageUrl : List Nat
deriving DecidableEq

/-- The `AuthenticationClient` state: the cached auth info, if any. -/
structure AuthClientState where
  authInfo : Option AuthInfo
deriving DecidableEq

/-- `AuthenticationClient.invalidate`: drop the cached auth info, so the
next request re-authenticates. -/
def invalidateAuth (_s : AuthClientState) : AuthClientState :=
  { authInfo := none }

/-- `AuthenticationClient.get_auth_info`: the cached info when present;
otherwise authenticate (`fresh` is what the authenticator returns) and
cache it.  The `Bool` records whether an authentication was performed. -/
def getAuthInfo (s : AuthClientState) (fresh : AuthInfo) :
    AuthInfo × Bool × AuthClientState :=
  match s.authInfo with
  | some i => (i, false, s)
  | none => (fresh, true, { authInfo := some fresh })

/-- `OpenStackContainer._react_to_error`: on 401 invalidate the cached
credentials and report the operation as retryable (`True`); any other
code is delegated to the common container error handler. -/
def reactToError (common : Nat → Bool) (s : AuthClientState) (code : Nat) :
    Bool × AuthClientState :=
  if code = UNAUTHORIZED then (true, invalidateAuth s)
  else (common code, s)

/-- C10.  On 401 Unauthorized the OpenStack container invalidates the
cached authentication info — so the next `get_auth_info` performs a new
authentication — and signals the operation as retryable; every other
response code is handed to the common container error handler with the
cached credentials untouched. -/
theorem openstack_react_to_error_spec (common : Nat → Bool)
    (s : AuthClientState) (code : Nat) (fresh : AuthInfo)
    (h : code ≠ UNAUTHORIZED) :
    (reactToError common s UNAUTHORIZED).1 = true ∧
    (reactToError common s UNAUTHORIZED).2.authInfo = none ∧
    (getAuthInfo (reactToError common s UNAUTHORIZED).2 fresh).2.1 = true ∧
    reactToError common s code = (common code, s) := by
  refine ⟨?_, ?_, ?_, ?_⟩
  · rw [reactToError, if_pos rfl]
  · rw [reactToError, if_pos rfl]
    rfl
  · rw [reactToError, if_pos rfl]
    rfl
  · rw [reactToError, if_neg h]

/-- Witness for C10 at a concrete state and response code 404. -/
theorem openstack_react_to_error_spec_witness :
    (reactToError (fun _ => false)
        (AuthClientState.mk (some (AuthInfo.mk [116] [117])))
        UNAUTHORIZED).1 = true ∧
    (reactToError (fun _ => false)
        (AuthClientState.mk (some (AuthInfo.mk [116] [117])))
        UNAUTHORIZED).2.authInfo = none ∧
    (getAuthInfo (reactToError (fun _ => false)
        (AuthClientState.mk (some (AuthInfo.mk [116] [117])))
        UNAUTHORIZED).2 (AuthInfo.mk [118] [119])).2.1 = true ∧
    reactToError (fun _ => false)
        (AuthClientState.mk (some (AuthInfo.mk [116] [117]))) 404
      = ((fun _ => false) 404,
         AuthClientState.mk (some (AuthInfo.mk [116] [117]))) :=
  openstack_react_to_error_spec (fun _ => false)
    (AuthClientState.mk (some (AuthInfo.mk [116] [117]))) 404
    (AuthInfo.mk [118] [119]) (by decide)

end Tahoe

